import Mathlib

/-!
# Verification of the pixollab backend (shared pixel canvas and chat rooms)

Shallow embedding of the Go sources: the pubsub ingestion handlers
(`onPixelUpdate`, `onChatMessages` in their JSON and binary variants), the
HTTP query handlers (`getCanvas`, `getMessages`, `clearData`), and the
key-value store they share.  Go strings are modelled as `List Char`, byte
buffers as `List Nat` (each entry one byte), the external KV collaborator as
an association list, and Go's `fmt` rendering/scanning of decimal and hex
numbers by explicit functions.
-/

namespace PixLib

/-- Go strings (used for rooms, keys, colors, ids) as lists of characters. -/
abbrev Str := List Char

/-- Struct `Pixel` from the source (`backend.go`, `types.go`).  Go `int`
coordinates are modelled as `Int`. -/
structure Pixel where
  x : Int
  y : Int
  color : Str
  userId : Str
  username : Str
deriving DecidableEq

/-- Struct `ChatMessage` from the source (`backend.go`, `types.go`). -/
structure ChatMessage where
  id : Str
  userId : Str
  username : Str
  message : Str
  timestamp : Int
deriving DecidableEq

/-- Constants `CanvasWidth = CanvasHeight = 90` from the source. -/
def canvasW : Nat := 90

def canvasH : Nat := 90

/-- The background color constant `"#ffffff"`. -/
def white : Str := "#ffffff".toList

/-- Decimal digit character, as produced by Go's `fmt` `%d` verb. -/
def digitCh (n : Nat) : Char := Char.ofNat (48 + n)

/-- Little-endian decimal digits of a natural number; structural recursion
on a fuel argument (any fuel above `n` gives the same digits, since `n/10`
shrinks strictly) so that the function reduces inside the kernel. -/
def decDigitsRevFuel (fuel n : Nat) : List Char :=
  match fuel with
  | 0 => []
  | f + 1 => if n < 10 then [digitCh n] else digitCh (n % 10) :: decDigitsRevFuel f (n / 10)

/-- Little-endian decimal digits of a natural number. -/
def decDigitsRev (n : Nat) : List Char := decDigitsRevFuel (n + 1) n

/-- Model of `fmt.Sprintf("%d", n)` for a nonnegative value. -/
def natRepr (n : Nat) : Str := (decDigitsRev n).reverse

/-- Model of `fmt.Sprintf("%d", i)` for a Go `int`/`int64`. -/
def intRepr (i : Int) : Str :=
  if i < 0 then '-' :: natRepr i.natAbs else natRepr i.natAbs

/-- Lowercase hexadecimal digit character, as produced by the `%x` verb. -/
def hexDigitCh (n : Nat) : Char :=
  if n < 10 then Char.ofNat (48 + n) else Char.ofNat (87 + n)

/-- Little-endian hexadecimal digits of a natural number (fuel-based for
the same reason as `decDigitsRevFuel`). -/
def hexDigitsRevFuel (fuel n : Nat) : List Char :=
  match fuel with
  | 0 => []
  | f + 1 => if n < 16 then [hexDigitCh n] else hexDigitCh (n % 16) :: hexDigitsRevFuel f (n / 16)

/-- Little-endian hexadecimal digits of a natural number. -/
def hexDigitsRev (n : Nat) : List Char := hexDigitsRevFuel (n + 1) n

/-- Model of `fmt.Sprintf("%06x", n)`: lowercase hex, zero-padded to six
digits (values below 2^24 never need more than six). -/
def hex6 (n : Nat) : Str :=
  let ds := (hexDigitsRev n).reverse
  List.replicate (6 - ds.length) '0' ++ ds

/-- `fmt.Sprintf("#%06x", colorValue&0xFFFFFF)` from the binary pixel
decoder. -/
def hexColor (v : Nat) : Str := '#' :: hex6 (v % 16777216)

/-- Whitespace as skipped by a `%d` directive of `fmt.Sscanf`. -/
def isSpaceCh (c : Char) : Bool :=
  c == ' ' || c == '\t' || c == '\n' || c == '\r'

def isDigitCh (c : Char) : Bool := 48 ≤ c.toNat && c.toNat ≤ 57

/-- Value of a string of decimal digits. -/
def digitsVal (ds : List Char) : Nat := ds.foldl (fun a c => 10 * a + (c.toNat - 48)) 0

/-- Model of one `%d` directive of `fmt.Sscanf`: skip leading whitespace,
read an optional sign and a nonempty run of decimal digits, and return the
value together with the unconsumed input. -/
def scanInt (s : List Char) : Option (Int × List Char) :=
  let s1 := s.dropWhile isSpaceCh
  if s1.head? = some '-' then
    let ds := s1.tail.takeWhile isDigitCh
    if ds.isEmpty then none
    else some (-(digitsVal ds : Int), s1.tail.dropWhile isDigitCh)
  else if s1.head? = some '+' then
    let ds := s1.tail.takeWhile isDigitCh
    if ds.isEmpty then none
    else some ((digitsVal ds : Int), s1.tail.dropWhile isDigitCh)
  else
    let ds := s1.takeWhile isDigitCh
    if ds.isEmpty then none
    else some ((digitsVal ds : Int), s1.dropWhile isDigitCh)

/-- Model of `fmt.Sscanf(coordPart, "%d:%d", &x, &y)` succeeding with
`n == 2` and `err == nil`: two integers separated by a literal colon;
trailing input is ignored (Sscanf does not require consuming everything). -/
def sscanfDD (s : Str) : Option (Int × Int) :=
  match scanInt s with
  | none => none
  | some (x, rest) =>
    if rest.head? = some ':' then
      match scanInt rest.tail with
      | none => none
      | some (y, _) => some (x, y)
    else none

/-- Model of `fmt.Sprintf("/%s/", room)`: the store prefix of a room. -/
def roomPrefix (room : Str) : Str := '/' :: (room ++ ['/'])

/-- Coordinate part of a pixel key, `fmt.Sprintf("%d:%d", x, y)`. -/
def coordStr (x y : Int) : Str := intRepr x ++ ':' :: intRepr y

/-- Model of `fmt.Sprintf("/%s/%d:%d", room, x, y)`: the key of a pixel record. -/
def pixelKey (room : Str) (x y : Int) : Str := roomPrefix room ++ coordStr x y

/-- Model of `fmt.Sprintf("/%s/%s", room, id)`: the key of a chat record. -/
def chatKey (room : Str) (id : Str) : Str := roomPrefix room ++ id

/-- A value held by the key-value store.  The handlers only ever store the
JSON encoding of a `Pixel` or of a `ChatMessage`; `junk` stands for any
byte payload that is not valid JSON for the struct being read (including
empty payloads).  `encoding/json` ignores unknown fields and leaves missing
fields at their zero value, so a stored value of the other struct type still
decodes (to a zero-filled record); that cross-decoding is modelled
faithfully below. -/
inductive StoredVal where
  | pix (p : Pixel)
  | msg (m : ChatMessage)
  | junk (tag : Nat)
deriving DecidableEq

/-- The zero `Pixel` (what Go leaves after unmarshalling JSON carrying none
of the pixel fields). -/
def zeroPixel : Pixel := ⟨0, 0, [], [], []⟩

/-- The zero `ChatMessage`. -/
def zeroMsg : ChatMessage := ⟨[], [], [], [], 0⟩

/-- Action of `json.Unmarshal(bytes, &pixel)` on a stored value.  Fails
only on malformed bytes. -/
def decodePix : StoredVal → Option Pixel
  | .pix p => some p
  | .msg _ => some zeroPixel
  | .junk _ => none

/-- Action of `json.Unmarshal(bytes, &message)` on a stored value. -/
def decodeMsg : StoredVal → Option ChatMessage
  | .msg m => some m
  | .pix _ => some zeroMsg
  | .junk _ => none

/-- The external key-value collaborator, one namespace (`/canvas` or
`/chat`): an association list from keys to stored payloads. -/
abbrev Store := List (Str × StoredVal)

/-- Operation `db.Put(k, v)`: overwrite the binding of `k`. -/
def putKV (k : Str) (v : StoredVal) (s : Store) : Store :=
  (k, v) :: s.filter (fun kv => kv.1 != k)

/-- Operation `db.Get(k)`: payload bound to `k`, or a not-found error. -/
def getKV (s : Store) (k : Str) : Option StoredVal :=
  (s.find? (fun kv => kv.1 == k)).map (fun kv => kv.2)

/-- Operation `db.Delete(k)`. -/
def delKV (k : Str) (s : Store) : Store := s.filter (fun kv => kv.1 != k)

/-- Operation `db.List(pfx)`: every stored key carrying the prefix (order as held in
the association list; the collaborator promises no particular order). -/
def listKeys (s : Store) (pfx : Str) : List Str :=
  (s.map (fun kv => kv.1)).filter (fun k => pfx.isPrefixOf k)

/-! ## Canvas reconstruction (`getCanvas`) -/

/-- The JSON 2-D array returned by `getCanvas`: rows indexed by `y`, cells
by `x`. -/
abbrev Grid := List (List Str)

/-- The seed grid: 90 × 90 cells of `"#ffffff"`. -/
def initGrid : Grid := List.replicate canvasH (List.replicate canvasW white)

def getCell (g : Grid) (x y : Nat) : Str := (g.getD y []).getD x []

def setCell (g : Grid) (x y : Nat) (c : Str) : Grid :=
  g.set y ((g.getD y []).set x c)

/-- One iteration of the key loop of `getCanvas` in its bounds-checked form
(`part_003` lines 163-185): skip keys no longer than the room prefix, parse
the `"{x}:{y}"` suffix, skip on parse failure or out-of-range coordinates,
then load, decode and overlay the stored pixel's color. -/
def applyCanvasKey (s : Store) (room : Str) (g : Grid) (k : Str) : Grid :=
  if k.length ≤ (roomPrefix room).length then g
  else
    match sscanfDD (k.drop (roomPrefix room).length) with
    | none => g
    | some (x, y) =>
      if 0 ≤ x ∧ x < (canvasW : Int) ∧ 0 ≤ y ∧ y < (canvasH : Int) then
        match getKV s k with
        | some v =>
          match decodePix v with
          | some p => setCell g x.toNat y.toNat p.color
          | none => g
        | none => g
      else g

/-- Handler `getCanvas` of `part_003`: seed the grid, list the room's keys and fold
the overlay loop over them. -/
def part3GetCanvas (s : Store) (room : Str) : Grid :=
  (listKeys s (roomPrefix room)).foldl (applyCanvasKey s room) initGrid

/-- Result of running a Go code path that may hit an index-out-of-range
runtime panic. -/
inductive GoResult (α : Type) where
  | oob
  | ok (a : α)
deriving DecidableEq

/-- Assignment `canvas[y][x] = c` with no bounds check, as in `backend.go` line 149:
panics unless `0 ≤ y < len(canvas)` and `0 ≤ x < len(canvas[y])`. -/
def setCellChecked (g : Grid) (x y : Int) (c : Str) : GoResult Grid :=
  if 0 ≤ y ∧ y.toNat < g.length then
    let row := g.getD y.toNat []
    if 0 ≤ x ∧ x.toNat < row.length then .ok (g.set y.toNat (row.set x.toNat c))
    else .oob
  else .oob

/-- One iteration of the key loop of `getCanvas` in `backend.go` (lines
140-154): same parsing, but the parsed coordinates are used to index the
grid without any bounds validation. -/
def backendApplyCanvasKey (s : Store) (room : Str) (g : GoResult Grid) (k : Str) :
    GoResult Grid :=
  match g with
  | .oob => .oob
  | .ok g =>
    if k.length ≤ (roomPrefix room).length then .ok g
    else
      match sscanfDD (k.drop (roomPrefix room).length) with
      | none => .ok g
      | some (x, y) =>
        match getKV s k with
        | some v =>
          match decodePix v with
          | some p => setCellChecked g x y p.color
          | none => .ok g
        | none => .ok g

/-- Handler `getCanvas` of `backend.go`. -/
def backendGetCanvas (s : Store) (room : Str) : GoResult Grid :=
  (listKeys s (roomPrefix room)).foldl (backendApplyCanvasKey s room) (.ok initGrid)

/-! ## Pixel ingestion (`onPixelUpdate`) -/

/-- Room defaulting shared by the handlers: `if room == "" { room = "default" }`. -/
def effRoom (room : Str) : Str := if room = [] then "default".toList else room

/-- The coordinate validation of the ingestion handlers:
`pixel.X >= 0 && pixel.X < CanvasWidth && pixel.Y >= 0 && pixel.Y < CanvasHeight`. -/
def inRange (p : Pixel) : Prop :=
  0 ≤ p.x ∧ p.x < (canvasW : Int) ∧ 0 ≤ p.y ∧ p.y < (canvasH : Int)

instance (p : Pixel) : Decidable (inRange p) := by unfold inRange; infer_instance

/-- The validated save loop shared by the `part_000`..`part_004` pixel
handlers: keep only in-range pixels and `Put` each under
`"/{room}/{x}:{y}"`. -/
def savePixels (room : Str) (pixels : List Pixel) (s : Store) : Store :=
  pixels.foldl
    (fun s p => if inRange p then putKV (pixelKey room p.x p.y) (.pix p) s else s) s

/-- Handler `onPixelUpdate` of `part_003` after a successful JSON decode:
default
the room, then run the validated save loop. -/
def part3PixelIngest (rawRoom : Str) (pixels : List Pixel) (s : Store) : Store :=
  savePixels (effRoom rawRoom) pixels s

/-- Handler `onPixelUpdate` of `backend.go` after a successful JSON decode
(lines
268-273): every pixel of the batch is saved with no coordinate
validation. -/
def backendPixelIngest (rawRoom : Str) (pixels : List Pixel) (s : Store) : Store :=
  pixels.foldl
    (fun s p => putKV (pixelKey (effRoom rawRoom) p.x p.y) (.pix p) s) s

/-! ## Chat ingestion (`onChatMessages`) -/

/-- Handler `onChatMessages` of `part_003` after a successful JSON decode:
store the
message under `"/{room}/{id}"`. -/
def part3ChatIngest (rawRoom : Str) (m : ChatMessage) (s : Store) : Store :=
  putKV (chatKey (effRoom rawRoom) m.id) (.msg m) s

/-- Handler `onChatMessages` of `backend.go` (line 306) after a successful
JSON
decode: the key is `fmt.Sprintf("/%s/%d", room, message.Timestamp)` — the
timestamp, not the message id. -/
def backendChatIngest (rawRoom : Str) (m : ChatMessage) (s : Store) : Store :=
  putKV (roomPrefix (effRoom rawRoom) ++ intRepr m.timestamp) (.msg m) s

/-! ## Message archive (`getMessages`) -/

/-- The record-collection loop of `getMessages`: for each listed key longer
than the room prefix, load the payload and keep it when it decodes. -/
def roomMessagesRaw (s : Store) (room : Str) : List ChatMessage :=
  ((listKeys s (roomPrefix room)).filter
      (fun k => (roomPrefix room).length < k.length)).filterMap
    (fun k => (getKV s k).bind decodeMsg)

/-- Comparison used by the `sort.Slice` call of `getMessages`
(nondecreasing timestamps). -/
def tsLE (a b : ChatMessage) : Prop := a.timestamp ≤ b.timestamp

instance : DecidableRel tsLE := fun a b => by unfold tsLE; infer_instance

instance : IsTotal ChatMessage tsLE := ⟨fun a b => Int.le_total a.timestamp b.timestamp⟩

instance : IsTrans ChatMessage tsLE := ⟨fun _ _ _ h1 h2 => Int.le_trans h1 h2⟩

/-- Handler `getMessages`: collect the decodable records and sort ascending by
timestamp.  Go's `sort.Slice` with `Timestamp < Timestamp` produces some
permutation that is nondecreasing in the timestamp; `insertionSort` is one
such permutation and stands for it. -/
def getMessagesList (s : Store) (room : Str) : List ChatMessage :=
  List.insertionSort tsLE (roomMessagesRaw s room)

/-! ## Room clear (`clearData`) -/

/-- The delete loop of `clearData`: list the room's keys and delete each. -/
def clearRoom (room : Str) (s : Store) : Store :=
  (listKeys s (roomPrefix room)).foldl (fun acc k => delKV k acc) s

/-- The `type` query parameter of `clearData`. -/
inductive ClearType where
  | canvas
  | chat
deriving DecidableEq

/-- Handler `clearData`: select the `/canvas` or `/chat` namespace and clear the
room inside it, leaving the other namespace untouched. -/
def clearData (t : ClearType) (room : Str) (cs chs : Store) : Store × Store :=
  match t with
  | .canvas => (clearRoom room cs, chs)
  | .chat => (cs, clearRoom room chs)

/-! ## Binary decoders -/

/-- Outcome of a Go binary parsing path: `oob` is an out-of-bounds
slice/index panic, `fail` a structural decode failure (handler returns 1),
`ok` success. -/
inductive BinResult (α : Type) where
  | oob
  | fail
  | ok (a : α)
deriving DecidableEq

def BinResult.bind : BinResult α → (α → BinResult β) → BinResult β
  | .oob, _ => .oob
  | .fail, _ => .fail
  | .ok a, f => f a

/-- Read `data[i]`: panics when out of range. -/
def byteAt (data : List Nat) (i : Nat) : BinResult Nat :=
  match data.get? i with
  | some b => .ok b
  | none => .oob

/-- Little-endian `uint16` read `uint16(data[i]) | uint16(data[i+1])<<8`. -/
def u16At (data : List Nat) (i : Nat) : BinResult Nat :=
  (byteAt data i).bind fun b0 =>
  (byteAt data (i+1)).bind fun b1 =>
  .ok (b0 + b1 * 256)

/-- Little-endian `uint32` read from four consecutive bytes. -/
def u32At (data : List Nat) (i : Nat) : BinResult Nat :=
  (byteAt data i).bind fun b0 =>
  (byteAt data (i+1)).bind fun b1 =>
  (byteAt data (i+2)).bind fun b2 =>
  (byteAt data (i+3)).bind fun b3 =>
  .ok (b0 + b1 * 256 + b2 * 65536 + b3 * 16777216)

/-- Slice `data[a:b]`: panics unless `a ≤ b ≤ len(data)`. -/
def sliceAt (data : List Nat) (a b : Nat) : BinResult (List Nat) :=
  if a ≤ b ∧ b ≤ data.length then .ok ((data.drop a).take (b - a)) else .oob

/-- Conversion `string(bytes)` for a field sliced out of the buffer. -/
def bytesToStr (bs : List Nat) : Str := bs.map Char.ofNat

/-- One length-prefixed string field of the binary chat layout
(`part_001` lines 179-229): check four bytes remain, read the `uint32`
little-endian length, check the declared length against the remaining
buffer, then slice the content.  Returns the field and the next offset. -/
def readChatField (data : List Nat) (off : Nat) : BinResult (Str × Nat) :=
  if off + 4 > data.length then .fail
  else
    (u32At data off).bind fun len =>
    if off + 4 + len > data.length then .fail
    else
      (sliceAt data (off + 4) (off + 4 + len)).bind fun bs =>
      .ok (bytesToStr bs, off + 4 + len)

/-- The binary chat decoder (`part_000` lines 310-377, `part_001` lines
172-236): four length-prefixed fields — messageId, userId, username,
message — then a `uint32` little-endian timestamp. -/
def chatDecodeBin (data : List Nat) : BinResult ChatMessage :=
  (readChatField data 0).bind fun f1 =>
  (readChatField data f1.2).bind fun f2 =>
  (readChatField data f2.2).bind fun f3 =>
  (readChatField data f3.2).bind fun f4 =>
  if f4.2 + 4 > data.length then .fail
  else
    (u32At data f4.2).bind fun ts =>
    .ok ⟨f1.1, f2.1, f3.1, f4.1, (ts : Int)⟩

/-- The pixel-record loop of the binary pixel decoder (`part_000` lines
227-250): `for i := 0; i < pixelCount && offset+8 <= len(data); i++`.
Each record is `uint16 x, uint16 y, uint32 packedRGB`, little-endian; the
color is `fmt.Sprintf("#%06x", colorValue&0xFFFFFF)` and the identity
fields default to `"unknown"`. -/
def pixDecodeLoop (data : List Nat) : Nat → Nat → List Pixel → BinResult (List Pixel)
  | 0, _, acc => .ok acc.reverse
  | count + 1, off, acc =>
    if off + 8 ≤ data.length then
      (u16At data off).bind fun x =>
      (u16At data (off + 2)).bind fun y =>
      (u32At data (off + 4)).bind fun cv =>
      pixDecodeLoop data count (off + 8)
        (⟨(x : Int), (y : Int), hexColor cv, "unknown".toList, "unknown".toList⟩ :: acc)
    else .ok acc.reverse

/-- The binary pixel decoder (`part_000` lines 219-254): fail when fewer
than four bytes, read the `uint32` pixel count, then run the record loop. -/
def pixDecodeBin (data : List Nat) : BinResult (List Pixel) :=
  if data.length < 4 then .fail
  else (u32At data 0).bind fun count => pixDecodeLoop data count 4 []

/-- The binary pixel handler (`part_000` lines 200-297): on decode success
the validated save loop runs for room `"default"`; on failure nothing is
stored. -/
def pixBinIngest (data : List Nat) (s : Store) : Store :=
  match pixDecodeBin data with
  | .ok pixels => savePixels "default".toList pixels s
  | _ => s

/-- The binary chat handler (`part_000` lines 299-404, `part_001` lines
158-264): on decode success the message is stored under room `"default"`
(the binary layout carries no room field); on failure nothing is stored. -/
def chatBinIngest (data : List Nat) (s : Store) : Store :=
  match chatDecodeBin data with
  | .ok m => putKV (chatKey "default".toList m.id) (.msg m) s
  | _ => s

/-! ## Binary wire builders (used to state roundtrip/shape theorems) -/

/-- Little-endian two-byte encoding of a `uint16` value. -/
def u16le (n : Nat) : List Nat := [n % 256, n / 256 % 256]

/-- Little-endian four-byte encoding of a `uint32` value. -/
def u32le (n : Nat) : List Nat := [n % 256, n / 256 % 256, n / 65536 % 256, n / 16777216 % 256]

/-- One 8-byte record of the binary pixel layout: `(x, y, packedRGB)`. -/
def pixRecord (r : Nat × Nat × Nat) : List Nat := u16le r.1 ++ u16le r.2.1 ++ u32le r.2.2

/-- A full binary pixel batch: the count followed by the records. -/
def pixWire (recs : List (Nat × Nat × Nat)) : List Nat :=
  u32le recs.length ++ (recs.map pixRecord).flatten

/-- The `Pixel` that the binary decoder produces for one record. -/
def normPixel (r : Nat × Nat × Nat) : Pixel :=
  ⟨(r.1 : Int), (r.2.1 : Int), hexColor r.2.2, "unknown".toList, "unknown".toList⟩

/-- A well-framed binary chat message: four length-prefixed byte fields and
a trailing `uint32` timestamp. -/
def chatWire (idB uidB unameB msgB : List Nat) (ts : Nat) : List Nat :=
  u32le idB.length ++ idB ++ u32le uidB.length ++ uidB ++
    u32le unameB.length ++ unameB ++ u32le msgB.length ++ msgB ++ u32le ts

/-! ## Ingestion histories (for end-to-end canvas statements) -/

/-- A sequence of pixel-ingest events: each entry one decoded batch with its
raw room string. -/
abbrev History := List (Str × List Pixel)

/-- The store produced by running a history of `part_003` pixel ingests
against an initially empty `/canvas` namespace. -/
def runHistory (hist : History) : Store :=
  hist.foldl (fun s rb => part3PixelIngest rb.1 rb.2 s) []

/-- The last in-range pixel of one batch (with effective room `room`)
aimed at cell `(x, y)` of room `q`. -/
def batchLast (room q : Str) (x y : Nat) (ps : List Pixel) : Option Pixel :=
  ps.foldl
    (fun acc p =>
      if inRange p ∧ room = q ∧ p.x = (x : Int) ∧ p.y = (y : Int) then some p else acc)
    none

/-- The last in-range pixel of the history written to cell `(x, y)` of room
`q` (`none` when that cell was never written for `q`): later batches
override earlier ones, and inside a batch later pixels override earlier
ones. -/
def lastIngest (q : Str) (x y : Nat) (hist : History) : Option Pixel :=
  hist.foldl (fun acc rb => (batchLast (effRoom rb.1) q x y rb.2).elim acc some) none

/-- Room or key-fragment strings that do not contain the key delimiter. -/
def slashFree (s : Str) : Prop := '/' ∉ s

instance (s : Str) : Decidable (slashFree s) := by unfold slashFree; infer_instance

/-- Well-formed grid: 90 rows of 90 cells. -/
def GridWF (g : Grid) : Prop := g.length = canvasH ∧ ∀ row ∈ g, row.length = canvasW

/-- Invariant of every store reachable from the empty `/canvas` namespace
through validated pixel ingests: each binding is an in-range pixel record
at its own key for a slash-free room, and keys are unique. -/
def ShapeOK (s : Store) : Prop :=
  (∀ kv ∈ s, ∃ r p, slashFree r ∧ inRange p ∧ kv.1 = pixelKey r p.x p.y ∧ kv.2 = .pix p) ∧
  (s.map (fun kv => kv.1)).Nodup

/-! ## JSON values and `encoding/json` unmarshalling

The JSON pixel formats are decoded with `encoding/json`; the model below
covers exactly the struct shapes the handlers decode into.  JSON numbers
appear in the payloads only at integral values (coordinates), so numbers
are modelled as `Int` (for a `[]interface{}` destination Go represents a
number as `float64`; the `p[i].(float64)` type assertions of the compressed
decoder correspond to matching the `num` constructor). -/

inductive Json where
  | null
  | bool (b : Bool)
  | num (n : Int)
  | str (s : Str)
  | arr (xs : List Json)
  | obj (fields : List (Str × Json))

/-- Object field lookup.  With duplicate keys `encoding/json` keeps the last
occurrence, hence the reverse search. -/
def jField (fs : List (Str × Json)) (k : Str) : Option Json :=
  (fs.reverse.find? (fun f => f.1 == k)).map (fun f => f.2)

/-- Unmarshal a Go `string` struct field: a missing field or JSON `null`
leaves the zero value; a non-string value is an unmarshal error. -/
def jStr : Option Json → Option Str
  | none => some []
  | some .null => some []
  | some (.str s) => some s
  | some _ => none

/-- Unmarshal a Go `int`/`int64` struct field. -/
def jInt : Option Json → Option Int
  | none => some 0
  | some .null => some 0
  | some (.num n) => some n
  | some _ => none

/-- Unmarshal one JSON value into a `Pixel` struct. -/
def unmarshalPixel : Json → Option Pixel
  | .obj fs =>
    match jInt (jField fs "x".toList), jInt (jField fs "y".toList),
        jStr (jField fs "color".toList), jStr (jField fs "userId".toList),
        jStr (jField fs "username".toList) with
    | some x, some y, some c, some u, some un => some ⟨x, y, c, u, un⟩
    | _, _, _, _, _ => none
  | .null => some zeroPixel
  | _ => none

/-- Unmarshal a list of JSON values into `[]Pixel`, failing if any element
fails. -/
def unmarshalPixelList : List Json → Option (List Pixel)
  | [] => some []
  | j :: js =>
    match unmarshalPixel j with
    | none => none
    | some p => (unmarshalPixelList js).map (fun ps => p :: ps)

/-- Unmarshal a top-level JSON value into `[]Pixel` (`null` gives the nil
slice). -/
def unmarshalPixelArray : Json → Option (List Pixel)
  | .arr xs => unmarshalPixelList xs
  | .null => some []
  | _ => none

/-- Unmarshal a `[]Pixel` struct field. -/
def jPixArr : Option Json → Option (List Pixel)
  | none => some []
  | some .null => some []
  | some (.arr xs) => unmarshalPixelList xs
  | some _ => none

/-- The batch struct of the JSON object format:
`{pixels, room, timestamp, batchId, sourceId}`. -/
structure PixelBatch where
  pixels : List Pixel
  room : Str
  timestamp : Int
  batchId : Str
  sourceId : Str

/-- Unmarshal the JSON object batch format. -/
def unmarshalBatch : Json → Option PixelBatch
  | .obj fs =>
    match jPixArr (jField fs "pixels".toList), jStr (jField fs "room".toList),
        jInt (jField fs "timestamp".toList), jStr (jField fs "batchId".toList),
        jStr (jField fs "sourceId".toList) with
    | some ps, some r, some t, some b, some src => some ⟨ps, r, t, b, src⟩
    | _, _, _, _, _ => none
  | .null => some ⟨[], [], 0, [], []⟩
  | _ => none

/-- Unmarshal the inner lists of a `[][]interface{}` field (an inner `null`
is a nil slice). -/
def jInnerLists : List Json → Option (List (List Json))
  | [] => some []
  | .arr ys :: js => (jInnerLists js).map (fun ls => ys :: ls)
  | .null :: js => (jInnerLists js).map (fun ls => [] :: ls)
  | _ :: _ => none

/-- Unmarshal a `[][]interface{}` struct field. -/
def jArrArr : Option Json → Option (List (List Json))
  | none => some []
  | some .null => some []
  | some (.arr xs) => jInnerLists xs
  | some _ => none

/-- The compressed batch struct: `{p, r, t, b, s}`. -/
structure CompBatch where
  p : List (List Json)
  r : Str
  t : Int
  b : Str
  s : Str

/-- Unmarshal the compressed JSON batch format. -/
def unmarshalComp : Json → Option CompBatch
  | .obj fs =>
    match jArrArr (jField fs "p".toList), jStr (jField fs "r".toList),
        jInt (jField fs "t".toList), jStr (jField fs "b".toList),
        jStr (jField fs "s".toList) with
    | some p, some r, some t, some b, some src => some ⟨p, r, t, b, src⟩
    | _, _, _, _, _ => none
  | .null => some ⟨[], [], 0, [], []⟩
  | _ => none

/-- One positional triple `[x, y, color]` of the compressed format
(`part_000` lines 493-509): kept only when it has at least three entries of
the asserted types; `userId` comes from the batch `s` field, `username`
defaults to `"unknown"`. -/
def tripleToPixel (src : Str) (t : List Json) : Option Pixel :=
  if 3 ≤ t.length then
    match t.get? 0, t.get? 1, t.get? 2 with
    | some (.num x), some (.num y), some (.str c) => some ⟨x, y, c, src, "unknown".toList⟩
    | _, _, _ => none
  else none

/-- The pixel list built from a compressed batch. -/
def compPixels (src : Str) (ts : List (List Json)) : List Pixel :=
  ts.filterMap (tripleToPixel src)

/-- The JSON-object pixel decoder (`part_003`/`backend.go` `onPixelUpdate`):
batch struct only, room defaulted. -/
def decodeJsonObj (j : Json) : Option (List Pixel × Str) :=
  (unmarshalBatch j).map (fun b => (b.pixels, effRoom b.room))

/-- The pixel decoder of the first `part_000` variant: try a bare pixel
array first (keeping room `"default"`), fall back to the batch object. -/
def decodeJsonV1 (j : Json) : Option (List Pixel × Str) :=
  match unmarshalPixelArray j with
  | some ps => if 0 < ps.length then some (ps, "default".toList) else decodeJsonObj j
  | none => decodeJsonObj j

/-- The pixel decoder of the compressed `part_000` variant: try the
compressed struct first, fall back to the batch object. -/
def decodeJsonComp (j : Json) : Option (List Pixel × Str) :=
  match unmarshalComp j with
  | some c => if 0 < c.p.length then some (compPixels c.s c.p, effRoom c.r) else decodeJsonObj j
  | none => decodeJsonObj j

/-! ## JSON encoders for the equivalence statement -/

/-- The JSON object of one pixel. -/
def pixelToJson (p : Pixel) : Json :=
  .obj [("x".toList, .num p.x), ("y".toList, .num p.y), ("color".toList, .str p.color),
    ("userId".toList, .str p.userId), ("username".toList, .str p.username)]

/-- Format 1: a bare JSON array of pixel objects. -/
def encodeBare (ps : List Pixel) : Json := .arr (ps.map pixelToJson)

/-- Format 2: the JSON batch object. -/
def encodeBatchObj (ps : List Pixel) (room : Str) : Json :=
  .obj [("pixels".toList, .arr (ps.map pixelToJson)), ("room".toList, .str room),
    ("timestamp".toList, .num 0), ("batchId".toList, .str []), ("sourceId".toList, .str [])]

/-- Format 3: the compressed JSON object with positional triples. -/
def encodeComp (ps : List Pixel) (room src : Str) : Json :=
  .obj [("p".toList, .arr (ps.map (fun p => .arr [.num p.x, .num p.y, .str p.color]))),
    ("r".toList, .str room), ("t".toList, .num 0), ("b".toList, .str []),
    ("s".toList, .str src)]

/-! ## Toolkit: characters, digits and scanning -/

theorem ne_of_toNat_ne {a b : Char} (h : a.toNat ≠ b.toNat) : a ≠ b :=
  fun e => h (by rw [e])

theorem decFuel_congr : ∀ f g n : Nat, n < f → n < g →
    decDigitsRevFuel f n = decDigitsRevFuel g n := by
  intro f
  induction f with
  | zero => intro g n h; omega
  | succ f ih =>
    intro g n hf hg
    cases g with
    | zero => omega
    | succ g =>
      simp only [decDigitsRevFuel]
      by_cases h10 : n < 10
      · simp [h10]
      · simp only [if_neg h10]
        have := ih g (n / 10) (by omega) (by omega)
        rw [this]

theorem digitCh_toNat {d : Nat} (h : d < 10) : (digitCh d).toNat = 48 + d := by
  interval_cases d <;> decide

theorem isDigitCh_digitCh {d : Nat} (h : d < 10) : isDigitCh (digitCh d) = true := by
  simp [isDigitCh, digitCh_toNat h]; omega

theorem decFuel_digits : ∀ f n : Nat, n < f → ∀ c ∈ decDigitsRevFuel f n, isDigitCh c = true := by
  intro f
  induction f with
  | zero => intro n h; omega
  | succ f ih =>
    intro n hf c hc
    simp only [decDigitsRevFuel] at hc
    by_cases h10 : n < 10
    · simp [h10] at hc
      subst hc; exact isDigitCh_digitCh h10
    · simp only [if_neg h10, List.mem_cons] at hc
      rcases hc with rfl | hc
      · exact isDigitCh_digitCh (by omega)
      · exact ih (n / 10) (by omega) c hc

theorem natRepr_digits {n : Nat} {c : Char} (hc : c ∈ natRepr n) : isDigitCh c = true := by
  have := decFuel_digits (n + 1) n (by omega) c (by simpa [natRepr, decDigitsRev] using hc)
  exact this

theorem isDigitCh_toNat {c : Char} (h : isDigitCh c = true) : 48 ≤ c.toNat ∧ c.toNat ≤ 57 := by
  simp only [isDigitCh, Bool.and_eq_true, decide_eq_true_eq] at h
  exact h

theorem digit_ne {c : Char} (h : isDigitCh c = true) (d : Char)
    (hd : d.toNat < 48 ∨ 57 < d.toNat) : c ≠ d := by
  have hr := isDigitCh_toNat h
  exact ne_of_toNat_ne (by omega)

theorem digit_not_space {c : Char} (h : isDigitCh c = true) : isSpaceCh c = false := by
  simp only [isSpaceCh, Bool.or_eq_false_iff, beq_eq_false_iff_ne]
  exact ⟨⟨⟨digit_ne h ' ' (by decide), digit_ne h '\t' (by decide)⟩,
    digit_ne h '\n' (by decide)⟩, digit_ne h '\r' (by decide)⟩

theorem decDigitsRev_ne_nil (n : Nat) : decDigitsRev n ≠ [] := by
  simp only [decDigitsRev, decDigitsRevFuel]
  split <;> simp

theorem natRepr_ne_nil (n : Nat) : natRepr n ≠ [] := by
  simp [natRepr, decDigitsRev_ne_nil]

theorem takeWhile_append_all {p : Char → Bool} :
    ∀ {l r : List Char}, (∀ c ∈ l, p c = true) → (l ++ r).takeWhile p = l ++ r.takeWhile p := by
  intro l
  induction l with
  | nil => simp
  | cons a l ih =>
    intro r h
    have ha := h a (by simp)
    simp [List.takeWhile_cons, ha, ih (fun c hc => h c (by simp [hc]))]

theorem dropWhile_append_all {p : Char → Bool} :
    ∀ {l r : List Char}, (∀ c ∈ l, p c = true) → (l ++ r).dropWhile p = r.dropWhile p := by
  intro l
  induction l with
  | nil => simp
  | cons a l ih =>
    intro r h
    have ha := h a (by simp)
    simp [List.dropWhile_cons, ha, ih (fun c hc => h c (by simp [hc]))]

theorem dropWhile_of_takeWhile_nil {p : Char → Bool} {l : List Char}
    (h : l.takeWhile p = []) : l.dropWhile p = l := by
  conv_rhs => rw [← List.takeWhile_append_dropWhile (p := p) (l := l)]
  rw [h, List.nil_append]

theorem digitsVal_decFuel : ∀ f n : Nat, n < f → digitsVal (decDigitsRevFuel f n).reverse = n := by
  intro f
  induction f with
  | zero => intro n h; omega
  | succ f ih =>
    intro n hf
    simp only [decDigitsRevFuel]
    by_cases h10 : n < 10
    · simp [h10, digitsVal, digitCh_toNat h10]
    · simp only [if_neg h10, List.reverse_cons]
      have hrec := ih (n / 10) (by omega)
      simp only [digitsVal, List.foldl_append] at *
      rw [hrec]
      simp [digitCh_toNat (show n % 10 < 10 by omega)]
      omega

theorem digitsVal_natRepr (n : Nat) : digitsVal (natRepr n) = n :=
  digitsVal_decFuel (n + 1) n (by omega)

theorem scanInt_natRepr (n : Nat) (rest : List Char)
    (hrest : rest.takeWhile isDigitCh = []) :
    scanInt (natRepr n ++ rest) = some ((n : Int), rest) := by
  obtain ⟨c, cs, hcs⟩ : ∃ c cs, natRepr n = c :: cs := by
    cases h : natRepr n with
    | nil => exact absurd h (natRepr_ne_nil n)
    | cons c cs => exact ⟨c, cs, rfl⟩
  have hdigits : ∀ d ∈ natRepr n, isDigitCh d = true := fun d hd => natRepr_digits hd
  have hcdig : isDigitCh c = true := hdigits c (by rw [hcs]; simp)
  have hcr := isDigitCh_toNat hcdig
  have hdrop : (natRepr n ++ rest).dropWhile isSpaceCh = c :: (cs ++ rest) := by
    rw [hcs, List.cons_append, List.dropWhile_cons]
    simp [digit_not_space hcdig]
  simp only [scanInt, hdrop]
  have hnotminus : (c :: (cs ++ rest)).head? ≠ some '-' := by
    simp only [List.head?_cons, ne_eq, Option.some.injEq]
    exact digit_ne hcdig '-' (by decide)
  have hnotplus : (c :: (cs ++ rest)).head? ≠ some '+' := by
    simp only [List.head?_cons, ne_eq, Option.some.injEq]
    exact digit_ne hcdig '+' (by decide)
  rw [if_neg hnotminus, if_neg hnotplus]
  have htake : (c :: (cs ++ rest)).takeWhile isDigitCh = natRepr n := by
    have : ((c :: cs) ++ rest).takeWhile isDigitCh = (c :: cs) ++ rest.takeWhile isDigitCh := by
      apply takeWhile_append_all
      intro d hd; exact hdigits d (by rw [hcs]; exact hd)
    rw [List.cons_append] at this
    rw [this, hrest, List.append_nil, hcs]
  have hdropd : (c :: (cs ++ rest)).dropWhile isDigitCh = rest := by
    have : ((c :: cs) ++ rest).dropWhile isDigitCh = rest.dropWhile isDigitCh := by
      apply dropWhile_append_all
      intro d hd; exact hdigits d (by rw [hcs]; exact hd)
    rw [List.cons_append] at this
    rw [this, dropWhile_of_takeWhile_nil hrest]
  rw [htake, hdropd]
  have hne : (natRepr n).isEmpty = false := by
    rw [hcs]; rfl
  simp [hne, digitsVal_natRepr]

theorem scanInt_intRepr {x : Int} (hx : 0 ≤ x) (rest : List Char)
    (hrest : rest.takeWhile isDigitCh = []) :
    scanInt (intRepr x ++ rest) = some (x, rest) := by
  have : intRepr x = natRepr x.natAbs := by simp [intRepr, not_lt.mpr hx, Int.not_lt.mpr hx]
  rw [this, scanInt_natRepr x.natAbs rest hrest, Int.natAbs_of_nonneg hx]

theorem sscanfDD_coordStr {x y : Int} (hx : 0 ≤ x) (hy : 0 ≤ y) :
    sscanfDD (coordStr x y) = some (x, y) := by
  have h1 : scanInt (intRepr x ++ ':' :: intRepr y) = some (x, ':' :: intRepr y) := by
    apply scanInt_intRepr hx
    simp [List.takeWhile_cons, isDigitCh]
  have h2 : scanInt (intRepr y ++ []) = some (y, []) := scanInt_intRepr hy [] rfl
  rw [List.append_nil] at h2
  simp [sscanfDD, coordStr, h1, h2]

/-! ## Toolkit: keys and prefixes -/

theorem intRepr_chars {i : Int} {c : Char} (hc : c ∈ intRepr i) :
    isDigitCh c = true ∨ c = '-' := by
  unfold intRepr at hc
  split at hc
  · rcases List.mem_cons.mp hc with rfl | h
    · exact Or.inr rfl
    · exact Or.inl (natRepr_digits h)
  · exact Or.inl (natRepr_digits hc)

theorem slashFree_coordStr (x y : Int) : slashFree (coordStr x y) := by
  intro hmem
  unfold coordStr at hmem
  rcases List.mem_append.mp hmem with h | h
  · rcases intRepr_chars h with hd | he
    · exact absurd rfl (digit_ne hd '/' (by decide))
    · exact absurd he (by decide)
  · rcases List.mem_cons.mp h with he | h
    · exact absurd he (by decide)
    · rcases intRepr_chars h with hd | he
      · exact absurd rfl (digit_ne hd '/' (by decide))
      · exact absurd he (by decide)

theorem coordStr_ne_nil (x y : Int) : coordStr x y ≠ [] := by
  unfold coordStr
  intro h
  exact absurd (List.append_eq_nil.mp h).2 (by simp)

theorem slash_prefix_eq : ∀ {b : Str} {r t : Str}, slashFree b → slashFree t →
    (r ++ ['/']) <+: (b ++ '/' :: t) → r = b := by
  intro b
  induction b with
  | nil =>
    intro r t _ ht h
    cases r with
    | nil => rfl
    | cons c r1 =>
      simp only [List.nil_append, List.cons_append] at h
      obtain ⟨he, htl⟩ := (List.cons_prefix_cons).mp h
      subst he
      exact absurd (htl.subset (by simp)) ht
  | cons c b1 ih =>
    intro r t hb ht h
    cases r with
    | nil =>
      simp only [List.nil_append, List.cons_append] at h
      obtain ⟨he, _⟩ := (List.cons_prefix_cons).mp h
      exact absurd (by rw [he]; simp) hb
    | cons c2 r1 =>
      simp only [List.cons_append] at h
      obtain ⟨he, htl⟩ := (List.cons_prefix_cons).mp h
      subst he
      have hb1 : slashFree b1 := fun hm => hb (by simp [slashFree, hm])
      rw [ih hb1 ht htl]

theorem roomPrefix_prefix_pixelKey {q r : Str} {x y : Int}
    (hr : slashFree r) (h : roomPrefix q <+: pixelKey r x y) : q = r := by
  unfold roomPrefix pixelKey roomPrefix at h
  have hshape : ('/' :: (r ++ ['/'])) ++ coordStr x y = '/' :: (r ++ '/' :: coordStr x y) := by
    simp
  rw [hshape] at h
  have h2 : (q ++ ['/']) <+: (r ++ '/' :: coordStr x y) := (List.cons_prefix_cons.mp h).2
  exact slash_prefix_eq hr (slashFree_coordStr x y) h2

theorem roomPrefix_prefix_chatKey {q r : Str} {id : Str}
    (hr : slashFree r) (hid : slashFree id) (h : roomPrefix q <+: chatKey r id) : q = r := by
  unfold roomPrefix chatKey roomPrefix at h
  have hshape : ('/' :: (r ++ ['/'])) ++ id = '/' :: (r ++ '/' :: id) := by simp
  rw [hshape] at h
  have h2 : (q ++ ['/']) <+: (r ++ '/' :: id) := (List.cons_prefix_cons.mp h).2
  exact slash_prefix_eq hr hid h2

theorem roomPrefix_prefix_pixelKey_self (q : Str) (x y : Int) :
    roomPrefix q <+: pixelKey q x y :=
  ⟨coordStr x y, rfl⟩

theorem pixelKey_drop (q : Str) (x y : Int) :
    (pixelKey q x y).drop (roomPrefix q).length = coordStr x y := by
  unfold pixelKey
  exact List.drop_left (roomPrefix q) (coordStr x y)

theorem pixelKey_length (q : Str) (x y : Int) :
    (roomPrefix q).length < (pixelKey q x y).length := by
  unfold pixelKey
  rw [List.length_append]
  have := coordStr_ne_nil x y
  have : 0 < (coordStr x y).length := List.length_pos.mpr this
  omega

theorem pixelKey_inj {q : Str} {x y x2 y2 : Int} (hx : 0 ≤ x) (hy : 0 ≤ y)
    (hx2 : 0 ≤ x2) (hy2 : 0 ≤ y2) (h : pixelKey q x y = pixelKey q x2 y2) :
    x = x2 ∧ y = y2 := by
  have hc : coordStr x y = coordStr x2 y2 := by
    have := congrArg (fun l => List.drop (roomPrefix q).length l) h
    simpa [pixelKey_drop] using this
  have h1 := sscanfDD_coordStr hx hy
  have h2 := sscanfDD_coordStr hx2 hy2
  rw [hc, h2] at h1
  simp only [Option.some.injEq, Prod.mk.injEq] at h1
  exact ⟨h1.1.symm, h1.2.symm⟩

/-! ## Toolkit: store operations -/

theorem find?_filter_of_imp {α : Type} (p q : α → Bool) (l : List α)
    (h : ∀ x, p x = true → q x = true) : (l.filter q).find? p = l.find? p := by
  induction l with
  | nil => rfl
  | cons a l ih =>
    by_cases hq : q a = true
    · rw [List.filter_cons_of_pos hq]
      by_cases hp : p a = true
      · rw [List.find?_cons_of_pos _ hp, List.find?_cons_of_pos _ hp]
      · rw [List.find?_cons_of_neg _ (by simp [hp]), List.find?_cons_of_neg _ (by simp [hp]), ih]
    · have hp : ¬ p a = true := fun hpa => hq (h a hpa)
      rw [List.filter_cons_of_neg (by simp [hq]), List.find?_cons_of_neg _ (by simp [hp]), ih]

theorem getKV_putKV_self (k : Str) (v : StoredVal) (s : Store) :
    getKV (putKV k v s) k = some v := by
  simp [getKV, putKV, List.find?_cons_of_pos]

theorem getKV_putKV_ne {k k2 : Str} (v : StoredVal) (s : Store) (h : k2 ≠ k) :
    getKV (putKV k v s) k2 = getKV s k2 := by
  unfold getKV putKV
  rw [List.find?_cons_of_neg _ (by simpa using fun e => h e.symm)]
  rw [find?_filter_of_imp _ _ s]
  intro kv hkv
  have : kv.1 = k2 := by simpa using hkv
  simp [this, h]

theorem getKV_mem {s : Store} {k : Str} {v : StoredVal} (h : getKV s k = some v) :
    (k, v) ∈ s := by
  unfold getKV at h
  cases hf : s.find? (fun kv => kv.1 == k) with
  | none => rw [hf] at h; simp at h
  | some kv =>
    rw [hf] at h
    have hm := List.mem_of_find?_eq_some hf
    have hp := List.find?_some hf
    simp only [Option.map_some', Option.some.injEq] at h
    have h1 : kv.1 = k := by simpa using hp
    have : kv = (k, v) := by
      cases kv; simp_all
    rwa [this] at hm

theorem getKV_eq_none_iff {s : Store} {k : Str} :
    getKV s k = none ↔ k ∉ s.map (fun kv => kv.1) := by
  unfold getKV
  rw [Option.map_eq_none', List.find?_eq_none]
  constructor
  · intro h hmem
    obtain ⟨kv, hkv, he⟩ := List.mem_map.mp hmem
    exact absurd (by simpa using he) (by simpa using h kv hkv)
  · intro h kv hkv
    simp only [beq_iff_eq]
    intro he
    exact h (List.mem_map.mpr ⟨kv, hkv, he⟩)

theorem getKV_of_mem_nodup {s : Store} {k : Str} {v : StoredVal}
    (hnd : (s.map (fun kv => kv.1)).Nodup) (hm : (k, v) ∈ s) : getKV s k = some v := by
  induction s with
  | nil => simp at hm
  | cons kv s ih =>
    simp only [List.map_cons, List.nodup_cons] at hnd
    rcases List.mem_cons.mp hm with rfl | hm2
    · simp [getKV, List.find?_cons_of_pos]
    · have hne : kv.1 ≠ k := by
        intro he
        exact hnd.1 (List.mem_map.mpr ⟨(k, v), hm2, he.symm⟩)
      unfold getKV
      rw [List.find?_cons_of_neg _ (by simpa using hne)]
      exact ih hnd.2 hm2

theorem mem_listKeys {s : Store} {pfx k : Str} :
    k ∈ listKeys s pfx ↔ k ∈ s.map (fun kv => kv.1) ∧ pfx <+: k := by
  unfold listKeys
  rw [List.mem_filter]
  constructor
  · rintro ⟨h1, h2⟩
    exact ⟨h1, List.isPrefixOf_iff_prefix.mp h2⟩
  · rintro ⟨h1, h2⟩
    exact ⟨h1, List.isPrefixOf_iff_prefix.mpr h2⟩

theorem keys_putKV {k0 k : Str} {v : StoredVal} {s : Store}
    (h : k ∈ (putKV k0 v s).map (fun kv => kv.1)) :
    k = k0 ∨ k ∈ s.map (fun kv => kv.1) := by
  simp only [putKV, List.map_cons, List.mem_cons] at h
  rcases h with rfl | h
  · exact Or.inl rfl
  · obtain ⟨kv, hkv, he⟩ := List.mem_map.mp h
    exact Or.inr (List.mem_map.mpr ⟨kv, List.mem_of_mem_filter hkv, he⟩)

theorem nodup_keys_putKV {k : Str} {v : StoredVal} {s : Store}
    (h : (s.map (fun kv => kv.1)).Nodup) : ((putKV k v s).map (fun kv => kv.1)).Nodup := by
  simp only [putKV, List.map_cons, List.nodup_cons]
  constructor
  · intro hmem
    obtain ⟨kv, hkv, he⟩ := List.mem_map.mp hmem
    have := List.of_mem_filter hkv
    simp [he] at this
  · have hsub : ((s.filter (fun kv => kv.1 != k)).map (fun kv => kv.1)).Sublist
        (s.map (fun kv => kv.1)) := List.Sublist.map _ (List.filter_sublist s)
    exact h.sublist hsub

/-! ## Toolkit: grid access -/

theorem gridWF_initGrid : GridWF initGrid := by
  constructor
  · simp [initGrid]
  · intro row hrow
    have := List.eq_of_mem_replicate hrow
    simp [this]

theorem getD_set_self {α : Type} {l : List α} {i : Nat} (h : i < l.length)
    (a d : α) : (l.set i a).getD i d = a := by
  rw [List.getD_eq_getElem?_getD, List.getElem?_set_self h]; rfl

theorem getD_set_other {α : Type} {l : List α} {i j : Nat} (h : i ≠ j)
    (a d : α) : (l.set i a).getD j d = l.getD j d := by
  rw [List.getD_eq_getElem?_getD, List.getElem?_set_ne h, ← List.getD_eq_getElem?_getD]

theorem getCell_initGrid {x y : Nat} (hx : x < canvasW) (hy : y < canvasH) :
    getCell initGrid x y = white := by
  unfold getCell initGrid
  simp [List.getD_eq_getElem?_getD, List.getElem?_replicate, hx, hy]

theorem gridWF_setCell {g : Grid} {x y : Nat} {c : Str} (h : GridWF g) :
    GridWF (setCell g x y c) := by
  obtain ⟨hlen, hrow⟩ := h
  by_cases hy : y < g.length
  · constructor
    · simp [setCell, hlen]
    · intro row hmem
      rcases List.mem_or_eq_of_mem_set hmem with hmem2 | rfl
      · exact hrow row hmem2
      · rw [List.length_set]
        have hg : g.getD y [] = g[y] := by
          rw [List.getD_eq_getElem?_getD, List.getElem?_eq_getElem hy]; rfl
        rw [hg]
        exact hrow _ (List.getElem_mem hy)
  · unfold setCell
    rw [List.set_eq_of_length_le (by omega)]
    exact ⟨hlen, hrow⟩

theorem getCell_setCell_same {g : Grid} {x y : Nat} {c : Str} (hwf : GridWF g)
    (hx : x < canvasW) (hy : y < canvasH) : getCell (setCell g x y c) x y = c := by
  obtain ⟨hlen, hrow⟩ := hwf
  have hyg : y < g.length := by omega
  have hgety : g.getD y [] = g[y] := by
    rw [List.getD_eq_getElem?_getD, List.getElem?_eq_getElem hyg]; rfl
  have hxr : x < (g.getD y []).length := by
    rw [hgety, hrow _ (List.getElem_mem hyg)]
    exact hx
  unfold getCell setCell
  rw [getD_set_self hyg, getD_set_self hxr]

theorem getCell_setCell_other {g : Grid} {x y x2 y2 : Nat} {c : Str}
    (h : x2 ≠ x ∨ y2 ≠ y) : getCell (setCell g x y c) x2 y2 = getCell g x2 y2 := by
  unfold getCell setCell
  by_cases hy : y2 = y
  · subst hy
    have hx : x ≠ x2 := by tauto
    by_cases hylen : y2 < g.length
    · rw [getD_set_self hylen, getD_set_other hx]
    · rw [List.set_eq_of_length_le (by omega)]
  · rw [getD_set_other (fun e => hy e.symm)]

/-! ## Toolkit: binary reads -/

theorem byteAt_ok {data : List Nat} {i : Nat} (h : i < data.length) :
    byteAt data i = .ok data[i] := by
  simp [byteAt, List.get?_eq_getElem?, List.getElem?_eq_getElem h]

theorem u16At_ok {data : List Nat} {i : Nat} (h : i + 2 ≤ data.length) :
    u16At data i = .ok (data[i] + data[i + 1] * 256) := by
  unfold u16At
  rw [byteAt_ok (by omega), byteAt_ok (by omega)]
  rfl

theorem u32At_ok {data : List Nat} {i : Nat} (h : i + 4 ≤ data.length) :
    u32At data i = .ok (data[i] + data[i + 1] * 256 +
      data[i + 2] * 65536 + data[i + 3] * 16777216) := by
  unfold u32At
  rw [byteAt_ok (by omega), byteAt_ok (by omega), byteAt_ok (by omega), byteAt_ok (by omega)]
  rfl

theorem sliceAt_ok {data : List Nat} {a b : Nat} (h1 : a ≤ b) (h2 : b ≤ data.length) :
    sliceAt data a b = .ok ((data.drop a).take (b - a)) := by
  simp [sliceAt, h1, h2]

theorem u16le_val {b0 b1 : Nat} (h0 : b0 < 256) (h1 : b1 < 256) :
    u16le (b0 + b1 * 256) = [b0, b1] := by
  simp only [u16le, List.cons.injEq, and_true]
  omega

theorem u32le_val {b0 b1 b2 b3 : Nat} (h0 : b0 < 256) (h1 : b1 < 256) (h2 : b2 < 256)
    (h3 : b3 < 256) : u32le (b0 + b1 * 256 + b2 * 65536 + b3 * 16777216) = [b0, b1, b2, b3] := by
  simp only [u32le, List.cons.injEq, and_true]
  omega

theorem drop_eq_cons {data : List Nat} {i : Nat} (h : i < data.length) :
    data.drop i = data[i] :: data.drop (i + 1) :=
  List.drop_eq_getElem_cons h

theorem take4_drop {data : List Nat} {off : Nat} (h : off + 4 ≤ data.length) :
    (data.drop off).take 4 = [data[off], data[off + 1],
      data[off + 2], data[off + 3]] := by
  rw [drop_eq_cons (by omega), drop_eq_cons (by omega), drop_eq_cons (by omega),
    drop_eq_cons (by omega)]
  rfl

theorem u32_slice (data : List Nat) (off : Nat) (h : off + 4 ≤ data.length)
    (hb : ∀ b ∈ data, b < 256) :
    u32At data off = .ok (data[off] + data[off + 1] * 256 +
        data[off + 2] * 65536 + data[off + 3] * 16777216) ∧
      u32le (data[off] + data[off + 1] * 256 +
        data[off + 2] * 65536 + data[off + 3] * 16777216)
        = (data.drop off).take 4 := by
  refine ⟨u32At_ok h, ?_⟩
  rw [take4_drop h]
  exact u32le_val (hb _ (List.getElem_mem _)) (hb _ (List.getElem_mem _))
    (hb _ (List.getElem_mem _)) (hb _ (List.getElem_mem _))

theorem slice_concat (data : List Nat) (off L : Nat) :
    (data.drop off).take L ++ data.drop (off + L) = data.drop off := by
  have := List.take_append_drop L (data.drop off)
  rwa [List.drop_drop] at this

theorem byteAt_append_right (pre l : List Nat) (i : Nat) :
    byteAt (pre ++ l) (pre.length + i) = byteAt l i := by
  simp only [byteAt, List.get?_eq_getElem?]
  rw [List.getElem?_append_right (by omega)]
  simp

theorem u16At_append (pre : List Nat) (v : Nat) (rest : List Nat) (hv : v < 65536) :
    u16At (pre ++ (u16le v ++ rest)) pre.length = .ok v := by
  unfold u16At
  have h0 : byteAt (pre ++ (u16le v ++ rest)) pre.length = byteAt (u16le v ++ rest) 0 := by
    have := byteAt_append_right pre (u16le v ++ rest) 0
    simpa using this
  have h1 : byteAt (pre ++ (u16le v ++ rest)) (pre.length + 1) = byteAt (u16le v ++ rest) 1 :=
    byteAt_append_right pre (u16le v ++ rest) 1
  rw [h0, h1]
  simp only [u16le, List.cons_append, byteAt, List.get?_eq_getElem?]
  simp only [List.getElem?_cons_zero, List.getElem?_cons_succ]
  show BinResult.ok (v % 256 + v / 256 % 256 * 256) = .ok v
  congr 1
  omega

theorem u32At_append (pre : List Nat) (v : Nat) (rest : List Nat) (hv : v < 4294967296) :
    u32At (pre ++ (u32le v ++ rest)) pre.length = .ok v := by
  unfold u32At
  have h0 : byteAt (pre ++ (u32le v ++ rest)) pre.length = byteAt (u32le v ++ rest) 0 := by
    have := byteAt_append_right pre (u32le v ++ rest) 0
    simpa using this
  have h1 := byteAt_append_right pre (u32le v ++ rest) 1
  have h2 := byteAt_append_right pre (u32le v ++ rest) 2
  have h3 := byteAt_append_right pre (u32le v ++ rest) 3
  rw [h0, h1, h2, h3]
  simp only [u32le, List.cons_append, byteAt, List.get?_eq_getElem?]
  simp only [List.getElem?_cons_zero, List.getElem?_cons_succ]
  show BinResult.ok (v % 256 + v / 256 % 256 * 256 + v / 65536 % 256 * 65536 +
    v / 16777216 % 256 * 16777216) = .ok v
  congr 1
  omega

theorem bind_ok {α β : Type} (a : α) (f : α → BinResult β) :
    BinResult.bind (.ok a) f = f a := rfl

theorem bind_fail {α β : Type} (f : α → BinResult β) :
    BinResult.bind .fail f = .fail := rfl

theorem bind_oob {α β : Type} (f : α → BinResult β) :
    BinResult.bind .oob f = .oob := rfl

theorem readChatField_no_oob (data : List Nat) (off : Nat) :
    readChatField data off ≠ .oob := by
  unfold readChatField
  by_cases h4 : off + 4 > data.length
  · simp [h4]
  · rw [if_neg h4, u32At_ok (by omega), bind_ok]
    by_cases hover : off + 4 + (data[off] + data[off + 1] * 256 +
        data[off + 2] * 65536 + data[off + 3] * 16777216) > data.length
    · simp [hover]
    · rw [if_neg hover, sliceAt_ok (by omega) (by omega), bind_ok]
      simp

theorem readChatField_inv {data : List Nat} {off : Nat} {f : Str} {o : Nat}
    (h : readChatField data off = .ok (f, o)) :
    ∃ L, off + 4 ≤ data.length ∧ off + 4 + L ≤ data.length ∧
      u32At data off = .ok L ∧ f = bytesToStr ((data.drop (off + 4)).take L) ∧
      o = off + 4 + L := by
  unfold readChatField at h
  by_cases h4 : off + 4 > data.length
  · rw [if_pos h4] at h; exact absurd h (by simp)
  · rw [if_neg h4, u32At_ok (by omega), bind_ok] at h
    set L := data[off] + data[off + 1] * 256 +
      data[off + 2] * 65536 + data[off + 3] * 16777216 with hL
    by_cases hover : off + 4 + L > data.length
    · rw [if_pos hover] at h; exact absurd h (by simp)
    · rw [if_neg hover, sliceAt_ok (by omega) (by omega), bind_ok] at h
      simp only [Nat.add_sub_cancel_left] at h
      simp only [BinResult.ok.injEq, Prod.mk.injEq] at h
      exact ⟨L, by omega, by omega, u32At_ok (by omega), h.1.symm, h.2.symm⟩

theorem chatField_decomp {data : List Nat} {off : Nat} {f : Str} {o : Nat}
    (hb : ∀ b ∈ data, b < 256) (h : readChatField data off = .ok (f, o)) :
    ∃ bs : List Nat, data.drop off = u32le bs.length ++ (bs ++ data.drop o) ∧
      f = bytesToStr bs ∧ o = off + 4 + bs.length ∧ o ≤ data.length := by
  obtain ⟨L, h4, hfit, hu32, hf, ho⟩ := readChatField_inv h
  have hlen : ((data.drop (off + 4)).take L).length = L := by
    rw [List.length_take, List.length_drop]
    omega
  have hs := u32_slice data off (by omega) hb
  have hLval : L = data[off] + data[off + 1] * 256 +
      data[off + 2] * 65536 + data[off + 3] * 16777216 := by
    rw [hs.1] at hu32
    injection hu32 with hv
    exact hv.symm
  refine ⟨(data.drop (off + 4)).take L, ?_, hf, by rw [hlen]; exact ho, by omega⟩
  calc data.drop off
      = (data.drop off).take 4 ++ data.drop (off + 4) := (slice_concat data off 4).symm
    _ = u32le L ++ data.drop (off + 4) := by
        congr 1
        rw [hLval]
        exact hs.2.symm
    _ = u32le L ++ ((data.drop (off + 4)).take L ++ data.drop (off + 4 + L)) := by
        rw [slice_concat data (off + 4) L]
    _ = u32le ((data.drop (off + 4)).take L).length ++
          ((data.drop (off + 4)).take L ++ data.drop o) := by rw [hlen, ho]

theorem chatDecodeBin_shape {data : List Nat} {m : ChatMessage}
    (hb : ∀ b ∈ data, b < 256) (h : chatDecodeBin data = .ok m) :
    ∃ b1 b2 b3 b4 ts rest, data = chatWire b1 b2 b3 b4 ts ++ rest ∧
      m = ⟨bytesToStr b1, bytesToStr b2, bytesToStr b3, bytesToStr b4, (ts : Int)⟩ ∧
      ts < 4294967296 := by
  unfold chatDecodeBin at h
  cases h1 : readChatField data 0 with
  | oob => exact absurd h1 (readChatField_no_oob data 0)
  | fail => rw [h1, bind_fail] at h; exact absurd h (by simp)
  | ok f1 =>
    rw [h1, bind_ok] at h
    cases h2 : readChatField data f1.2 with
    | oob => exact absurd h2 (readChatField_no_oob data f1.2)
    | fail => rw [h2, bind_fail] at h; exact absurd h (by simp)
    | ok f2 =>
      rw [h2, bind_ok] at h
      cases h3 : readChatField data f2.2 with
      | oob => exact absurd h3 (readChatField_no_oob data f2.2)
      | fail => rw [h3, bind_fail] at h; exact absurd h (by simp)
      | ok f3 =>
        rw [h3, bind_ok] at h
        cases h4 : readChatField data f3.2 with
        | oob => exact absurd h4 (readChatField_no_oob data f3.2)
        | fail => rw [h4, bind_fail] at h; exact absurd h (by simp)
        | ok f4 =>
          rw [h4, bind_ok] at h
          by_cases hts : f4.2 + 4 > data.length
          · rw [if_pos hts] at h; exact absurd h (by simp)
          · rw [if_neg hts, u32At_ok (by omega), bind_ok] at h
            simp only [BinResult.ok.injEq] at h
            obtain ⟨c1, hd1, hf1, ho1, hle1⟩ := chatField_decomp hb h1
            obtain ⟨c2, hd2, hf2, ho2, hle2⟩ := chatField_decomp hb h2
            obtain ⟨c3, hd3, hf3, ho3, hle3⟩ := chatField_decomp hb h3
            obtain ⟨c4, hd4, hf4, ho4, hle4⟩ := chatField_decomp hb h4
            have hs := u32_slice data f4.2 (by omega) hb
            set tsv := data[f4.2] + data[f4.2 + 1] * 256 +
              data[f4.2 + 2] * 65536 + data[f4.2 + 3] * 16777216 with htsv
            refine ⟨c1, c2, c3, c4, tsv, data.drop (f4.2 + 4), ?_, ?_, ?_⟩
            · have hlast : data.drop f4.2 = u32le tsv ++ data.drop (f4.2 + 4) := by
                have hcc := slice_concat data f4.2 4
                rw [← hcc]
                congr 1
                exact hs.2.symm
              calc data = data.drop 0 := (List.drop_zero data).symm
                _ = u32le c1.length ++ (c1 ++ data.drop f1.2) := hd1
                _ = u32le c1.length ++ (c1 ++ (u32le c2.length ++ (c2 ++ data.drop f2.2))) := by
                    rw [hd2]
                _ = u32le c1.length ++ (c1 ++ (u32le c2.length ++ (c2 ++ (u32le c3.length ++
                      (c3 ++ data.drop f3.2))))) := by rw [hd3]
                _ = u32le c1.length ++ (c1 ++ (u32le c2.length ++ (c2 ++ (u32le c3.length ++
                      (c3 ++ (u32le c4.length ++ (c4 ++ data.drop f4.2))))))) := by rw [hd4]
                _ = u32le c1.length ++ (c1 ++ (u32le c2.length ++ (c2 ++ (u32le c3.length ++
                      (c3 ++ (u32le c4.length ++ (c4 ++ (u32le tsv ++
                        data.drop (f4.2 + 4))))))))) := by rw [hlast]
                _ = chatWire c1 c2 c3 c4 tsv ++ data.drop (f4.2 + 4) := by
                    simp [chatWire, List.append_assoc]
            · rw [← h, hf1, hf2, hf3, hf4]
            · have c0 := hb _ (List.getElem_mem (show f4.2 < data.length by omega))
              have c1b := hb _ (List.getElem_mem (show f4.2 + 1 < data.length by omega))
              have c2b := hb _ (List.getElem_mem (show f4.2 + 2 < data.length by omega))
              have c3b := hb _ (List.getElem_mem (show f4.2 + 3 < data.length by omega))
              omega

theorem pixLoop_ok (data : List Nat) :
    ∀ (count off : Nat) (acc : List Pixel), ∃ l, pixDecodeLoop data count off acc = .ok l := by
  intro count
  induction count with
  | zero => intro off acc; exact ⟨acc.reverse, rfl⟩
  | succ c ih =>
    intro off acc
    unfold pixDecodeLoop
    by_cases h8 : off + 8 ≤ data.length
    · rw [if_pos h8, u16At_ok (by omega), bind_ok, u16At_ok (by omega), bind_ok,
        u32At_ok (by omega), bind_ok]
      exact ih (off + 8) _
    · rw [if_neg h8]
      exact ⟨acc.reverse, rfl⟩

theorem pixLoop_length (data : List Nat) :
    ∀ (count off : Nat) (acc l : List Pixel), pixDecodeLoop data count off acc = .ok l →
      l.length = acc.length + min count ((data.length - off) / 8) := by
  intro count
  induction count with
  | zero =>
    intro off acc l h
    simp only [pixDecodeLoop, BinResult.ok.injEq] at h
    simp [← h]
  | succ c ih =>
    intro off acc l h
    unfold pixDecodeLoop at h
    by_cases h8 : off + 8 ≤ data.length
    · rw [if_pos h8, u16At_ok (by omega), bind_ok, u16At_ok (by omega), bind_ok,
        u32At_ok (by omega), bind_ok] at h
      have := ih (off + 8) _ l h
      simp only [List.length_cons] at this
      rw [this]
      have hdiv : (data.length - off) / 8 = (data.length - (off + 8)) / 8 + 1 := by omega
      rw [hdiv]
      omega
    · rw [if_neg h8] at h
      simp only [BinResult.ok.injEq] at h
      have hdiv : (data.length - off) / 8 = 0 := by omega
      simp [← h, hdiv]

theorem pixRecord_length (r : Nat × Nat × Nat) : (pixRecord r).length = 8 := rfl

theorem pixLoop_complete :
    ∀ (recs : List (Nat × Nat × Nat)) (pre : List Nat) (acc : List Pixel),
      (∀ r ∈ recs, r.1 < 65536 ∧ r.2.1 < 65536 ∧ r.2.2 < 4294967296) →
      pixDecodeLoop (pre ++ (recs.map pixRecord).flatten) recs.length pre.length acc
        = .ok (acc.reverse ++ recs.map normPixel) := by
  intro recs
  induction recs with
  | nil => intro pre acc _; simp [pixDecodeLoop]
  | cons r recs ih =>
    intro pre acc hb
    have hr := hb r (by simp)
    have hshape : pre ++ ((r :: recs).map pixRecord).flatten
        = (pre ++ pixRecord r) ++ (recs.map pixRecord).flatten := by
      simp [List.append_assoc]
    rw [hshape]
    have hlen8 : pre.length + 8 ≤ ((pre ++ pixRecord r) ++ (recs.map pixRecord).flatten).length := by
      simp [pixRecord_length]
    show pixDecodeLoop _ (recs.length + 1) pre.length acc = _
    unfold pixDecodeLoop
    rw [if_pos hlen8]
    have hx : u16At ((pre ++ pixRecord r) ++ (recs.map pixRecord).flatten) pre.length
        = .ok r.1 := by
      have hassoc : (pre ++ pixRecord r) ++ (recs.map pixRecord).flatten
          = pre ++ (u16le r.1 ++ (u16le r.2.1 ++ u32le r.2.2 ++ (recs.map pixRecord).flatten)) := by
        simp [pixRecord, List.append_assoc]
      rw [hassoc]
      exact u16At_append pre r.1 _ hr.1
    have hy : u16At ((pre ++ pixRecord r) ++ (recs.map pixRecord).flatten) (pre.length + 2)
        = .ok r.2.1 := by
      have hassoc : (pre ++ pixRecord r) ++ (recs.map pixRecord).flatten
          = (pre ++ u16le r.1) ++ (u16le r.2.1 ++ (u32le r.2.2 ++ (recs.map pixRecord).flatten)) := by
        simp [pixRecord, List.append_assoc]
      have hpl : pre.length + 2 = (pre ++ u16le r.1).length := by simp [u16le]
      rw [hassoc, hpl]
      exact u16At_append _ r.2.1 _ hr.2.1
    have hcv : u32At ((pre ++ pixRecord r) ++ (recs.map pixRecord).flatten) (pre.length + 4)
        = .ok r.2.2 := by
      have hassoc : (pre ++ pixRecord r) ++ (recs.map pixRecord).flatten
          = (pre ++ (u16le r.1 ++ u16le r.2.1)) ++ (u32le r.2.2 ++ (recs.map pixRecord).flatten) := by
        simp [pixRecord, List.append_assoc]
      have hpl : pre.length + 4 = (pre ++ (u16le r.1 ++ u16le r.2.1)).length := by simp [u16le]
      rw [hassoc, hpl]
      exact u32At_append _ r.2.2 _ hr.2.2
    rw [hx, bind_ok, hy, bind_ok, hcv, bind_ok]
    have hpl8 : pre.length + 8 = (pre ++ pixRecord r).length := by simp [pixRecord_length]
    rw [hpl8]
    show pixDecodeLoop _ recs.length (pre ++ pixRecord r).length (normPixel r :: acc) = _
    rw [ih (pre ++ pixRecord r) (normPixel r :: acc) (fun r2 h2 => hb r2 (by simp [h2]))]
    simp

theorem pixDecodeBin_wire (recs : List (Nat × Nat × Nat))
    (hb : ∀ r ∈ recs, r.1 < 65536 ∧ r.2.1 < 65536 ∧ r.2.2 < 4294967296)
    (hc : recs.length < 4294967296) :
    pixDecodeBin (pixWire recs) = .ok (recs.map normPixel) := by
  have hu : u32At (pixWire recs) 0 = .ok recs.length := by
    have := u32At_append [] recs.length ((recs.map pixRecord).flatten) hc
    simpa [pixWire] using this
  have hlen : ¬ (pixWire recs).length < 4 := by
    simp [pixWire, u32le]
  unfold pixDecodeBin
  rw [if_neg hlen, hu, bind_ok]
  have hloop := pixLoop_complete recs (u32le recs.length) [] hb
  simpa [pixWire, u32le] using hloop

theorem chatDecodeBin_never_oob (data : List Nat) : chatDecodeBin data ≠ .oob := by
  unfold chatDecodeBin
  cases h1 : readChatField data 0 with
  | oob => exact absurd h1 (readChatField_no_oob data 0)
  | fail => simp [bind_fail]
  | ok f1 =>
    rw [bind_ok]
    cases h2 : readChatField data f1.2 with
    | oob => exact absurd h2 (readChatField_no_oob data f1.2)
    | fail => simp [bind_fail]
    | ok f2 =>
      rw [bind_ok]
      cases h3 : readChatField data f2.2 with
      | oob => exact absurd h3 (readChatField_no_oob data f2.2)
      | fail => simp [bind_fail]
      | ok f3 =>
        rw [bind_ok]
        cases h4 : readChatField data f3.2 with
        | oob => exact absurd h4 (readChatField_no_oob data f3.2)
        | fail => simp [bind_fail]
        | ok f4 =>
          rw [bind_ok]
          by_cases hts : f4.2 + 4 > data.length
          · simp [hts]
          · rw [if_neg hts, u32At_ok (by omega), bind_ok]
            simp

theorem pixDecodeBin_never_oob (data : List Nat) : pixDecodeBin data ≠ .oob := by
  unfold pixDecodeBin
  by_cases hlen : data.length < 4
  · simp [hlen]
  · rw [if_neg hlen, u32At_ok (by omega), bind_ok]
    obtain ⟨l, hl⟩ := pixLoop_ok data _ 4 []
    rw [hl]
    simp

theorem pixDecodeBin_ok_length {data : List Nat} {l : List Pixel}
    (h : pixDecodeBin data = .ok l) :
    ∃ count, u32At data 0 = .ok count ∧ l.length = min count ((data.length - 4) / 8) := by
  unfold pixDecodeBin at h
  by_cases hlen : data.length < 4
  · rw [if_pos hlen] at h; exact absurd h (by simp)
  · rw [if_neg hlen, u32At_ok (by omega), bind_ok] at h
    exact ⟨_, u32At_ok (by omega), by simpa using pixLoop_length data _ 4 [] l h⟩

theorem chatBinIngest_of_fail {data : List Nat} (s : Store)
    (h : chatDecodeBin data = .fail) : chatBinIngest data s = s := by
  unfold chatBinIngest
  rw [h]

theorem pixBinIngest_of_fail {data : List Nat} (s : Store)
    (h : pixDecodeBin data = .fail) : pixBinIngest data s = s := by
  unfold pixBinIngest
  rw [h]

/-! ## Claim C8 -/

/-- C8: a well-formed binary pixel batch (the declared count matching the
records present, each field in its wire range) decodes little-endian as
`uint16 x, uint16 y, uint32 packedRGB`, the color rendered as `"#"`
followed by the six lowercase hex digits of the low 24 bits, and
userId/username defaulted to `"unknown"`. -/
theorem C8_binary_pixel_decode (recs : List (Nat × Nat × Nat))
    (hb : ∀ r ∈ recs, r.1 < 65536 ∧ r.2.1 < 65536 ∧ r.2.2 < 4294967296)
    (hc : recs.length < 4294967296) :
    pixDecodeBin (pixWire recs) = .ok (recs.map (fun r =>
      ⟨(r.1 : Int), (r.2.1 : Int), '#' :: hex6 (r.2.2 % 16777216),
        "unknown".toList, "unknown".toList⟩)) :=
  pixDecodeBin_wire recs hb hc

/-- Witness for C8 at the spec example: the twelve bytes
`uint32(1) ++ uint16(3) ++ uint16(4) ++ uint32(0x00FF00)` decode to
`Pixel{x:3, y:4, color:"#00ff00"}`. -/
theorem C8_binary_pixel_decode_witness :
    pixWire [(3, 4, 65280)] = [1, 0, 0, 0, 3, 0, 4, 0, 0, 255, 0, 0] ∧
    pixDecodeBin [1, 0, 0, 0, 3, 0, 4, 0, 0, 255, 0, 0]
      = .ok [⟨3, 4, "#00ff00".toList, "unknown".toList, "unknown".toList⟩] := by
  have h := C8_binary_pixel_decode [(3, 4, 65280)] (by decide) (by decide)
  have e : pixWire [(3, 4, 65280)] = [1, 0, 0, 0, 3, 0, 4, 0, 0, 255, 0, 0] := by decide
  refine ⟨e, ?_⟩
  rw [e] at h
  rw [h]
  decide

/-! ## Claim C2 -/

/-- C2 counterexample: a binary pixel buffer whose declared pixel count (2)
exceeds the records present (1) is not rejected: the decoder succeeds with
the one complete record and the handler persists it — partial acceptance,
contradicting the claim that such a buffer yields a whole-batch decode
failure with nothing persisted. -/
theorem C2_counterexample :
    pixDecodeBin [2, 0, 0, 0, 3, 0, 4, 0, 0, 255, 0, 0]
        = .ok [⟨3, 4, "#00ff00".toList, "unknown".toList, "unknown".toList⟩] ∧
    pixBinIngest [2, 0, 0, 0, 3, 0, 4, 0, 0, 255, 0, 0] []
        = [(pixelKey "default".toList 3 4,
            .pix ⟨3, 4, "#00ff00".toList, "unknown".toList, "unknown".toList⟩)] := by
  constructor <;> decide

/-- C2 (amended): the binary chat decoder never reads out of bounds, only
accepts well-framed buffers (every declared string length fitting inside
the buffer — so any overrunning length prefix yields a whole-batch failure),
and persists nothing on failure; the binary pixel decoder never reads out
of bounds and persists nothing on failure, but a declared pixel count
larger than the complete 8-byte records present is not a failure: the
decoder truncates to `min count ⌊(len-4)/8⌋` records (partial acceptance). -/
theorem C2_overrun_safety (data : List Nat) (hb : ∀ b ∈ data, b < 256) :
    (chatDecodeBin data ≠ .oob) ∧
    (∀ m, chatDecodeBin data = .ok m →
      ∃ b1 b2 b3 b4 ts rest, data = chatWire b1 b2 b3 b4 ts ++ rest ∧
        m = ⟨bytesToStr b1, bytesToStr b2, bytesToStr b3, bytesToStr b4, (ts : Int)⟩) ∧
    (∀ s, chatDecodeBin data = .fail → chatBinIngest data s = s) ∧
    (pixDecodeBin data ≠ .oob) ∧
    (∀ s, pixDecodeBin data = .fail → pixBinIngest data s = s) ∧
    (∀ l, pixDecodeBin data = .ok l →
      ∃ count, u32At data 0 = .ok count ∧ l.length = min count ((data.length - 4) / 8)) := by
  refine ⟨chatDecodeBin_never_oob data, ?_, fun s h => chatBinIngest_of_fail s h,
    pixDecodeBin_never_oob data, fun s h => pixBinIngest_of_fail s h,
    fun l h => pixDecodeBin_ok_length h⟩
  intro m h
  obtain ⟨b1, b2, b3, b4, ts, rest, hd, hm, _⟩ := chatDecodeBin_shape hb h
  exact ⟨b1, b2, b3, b4, ts, rest, hd, hm⟩

/-- Witness for C2 at a concrete overrunning chat buffer (declared
messageId length 10, three bytes remaining): no out-of-bounds read, the
decode fails, and nothing is persisted. -/
theorem C2_overrun_safety_witness :
    chatDecodeBin [10, 0, 0, 0, 1, 2, 3] ≠ .oob ∧
    chatDecodeBin [10, 0, 0, 0, 1, 2, 3] = .fail ∧
    chatBinIngest [10, 0, 0, 0, 1, 2, 3] [] = [] := by
  have h := C2_overrun_safety [10, 0, 0, 0, 1, 2, 3] (by decide)
  exact ⟨h.1, by decide, h.2.2.1 [] (by decide)⟩

/-! ## Claims C3 and C5 (the unvalidated `backend.go` paths) -/

/-- C3: the claim fails on `backend.go` — its `onPixelUpdate` persists the
out-of-range pixel `(100, 5)` under key `"/r/100:5"`, while the
bounds-checked `part_003` handler drops the same pixel and persists
nothing, as the spec describes. -/
theorem C3_backend_persists_out_of_range :
    backendPixelIngest "r".toList [⟨100, 5, "#000000".toList, [], []⟩] []
        = [(pixelKey "r".toList 100 5, .pix ⟨100, 5, "#000000".toList, [], []⟩)] ∧
    part3PixelIngest "r".toList [⟨100, 5, "#000000".toList, [], []⟩] [] = [] := by
  constructor <;> decide

/-- C5: with an out-of-range pixel key in the store (created here by
`backend.go`'s own unvalidated ingest), `backend.go`'s `getCanvas` indexes
`canvas[0][100]` without a bounds check — an index-out-of-range runtime
panic — instead of skipping the key; the bounds-checked `part_003`
`getCanvas` on the same store returns the complete all-background grid. -/
theorem C5_backend_canvas_oob :
    backendGetCanvas (backendPixelIngest "r".toList [⟨100, 0, "#000000".toList, [], []⟩] [])
        "r".toList = .oob ∧
    part3GetCanvas (backendPixelIngest "r".toList [⟨100, 0, "#000000".toList, [], []⟩] [])
        "r".toList = initGrid := by
  constructor <;> decide

/-! ## Claim C7 (store key scheme) -/

theorem keys_savePixels (room : Str) :
    ∀ (pixels : List Pixel) (s : Store) (k : Str),
      k ∈ (savePixels room pixels s).map (fun kv => kv.1) →
      k ∈ s.map (fun kv => kv.1) ∨ ∃ p ∈ pixels, inRange p ∧ k = pixelKey room p.x p.y := by
  intro pixels
  induction pixels with
  | nil => intro s k h; exact Or.inl h
  | cons p ps ih =>
    intro s k h
    have h2 : savePixels room (p :: ps) s
        = savePixels room ps (if inRange p then putKV (pixelKey room p.x p.y) (.pix p) s else s) :=
      rfl
    rw [h2] at h
    rcases ih _ k h with hmem | ⟨p2, hp2, hr2, he2⟩
    · by_cases hir : inRange p
      · rw [if_pos hir] at hmem
        rcases keys_putKV hmem with rfl | hmem2
        · exact Or.inr ⟨p, by simp, hir, rfl⟩
        · exact Or.inl hmem2
      · rw [if_neg hir] at hmem
        exact Or.inl hmem
    · exact Or.inr ⟨p2, by simp [hp2], hr2, he2⟩

theorem keys_backendPixelIngest (room : Str) :
    ∀ (pixels : List Pixel) (s : Store) (k : Str),
      k ∈ (backendPixelIngest room pixels s).map (fun kv => kv.1) →
      k ∈ s.map (fun kv => kv.1) ∨ ∃ p ∈ pixels, k = pixelKey (effRoom room) p.x p.y := by
  intro pixels
  induction pixels with
  | nil => intro s k h; exact Or.inl h
  | cons p ps ih =>
    intro s k h
    have h2 : backendPixelIngest room (p :: ps) s
        = backendPixelIngest room ps (putKV (pixelKey (effRoom room) p.x p.y) (.pix p) s) := rfl
    rw [h2] at h
    rcases ih _ k h with hmem | ⟨p2, hp2, he2⟩
    · rcases keys_putKV hmem with rfl | hmem2
      · exact Or.inr ⟨p, by simp, rfl⟩
      · exact Or.inl hmem2
    · exact Or.inr ⟨p2, by simp [hp2], he2⟩

/-- C7 counterexample: `backend.go`'s `onChatMessages` stores the message
with id `"m1"` and timestamp 5 for room `"r"` under `"/r/5"` — the
timestamp — which is not `"/{room}/{id}"` = `"/r/m1"`. -/
theorem C7_counterexample :
    backendChatIngest "r".toList ⟨"m1".toList, [], [], [], 5⟩ []
        = [("/r/5".toList, .msg ⟨"m1".toList, [], [], [], 5⟩)] ∧
    "/r/5".toList ≠ chatKey "r".toList "m1".toList := by
  constructor <;> decide

/-- C7 (amended): every persisted pixel record (JSON handlers with or
without validation, and the binary handler) is stored under
`"/{room}/{x}:{y}"`, and the `part_000`..`part_004` chat handlers store
chat messages under `"/{room}/{id}"`; `backend.go`'s chat handler alone
deviates, storing under `"/{room}/{timestamp}"`. -/
theorem C7_key_scheme (room : Str) (pixels : List Pixel) (m : ChatMessage)
    (data : List Nat) (s : Store) :
    (∀ k, k ∈ (part3PixelIngest room pixels s).map (fun kv => kv.1) →
      k ∈ s.map (fun kv => kv.1) ∨
        ∃ p ∈ pixels, inRange p ∧ k = pixelKey (effRoom room) p.x p.y) ∧
    (∀ k, k ∈ (backendPixelIngest room pixels s).map (fun kv => kv.1) →
      k ∈ s.map (fun kv => kv.1) ∨ ∃ p ∈ pixels, k = pixelKey (effRoom room) p.x p.y) ∧
    (∀ k, k ∈ (pixBinIngest data s).map (fun kv => kv.1) →
      k ∈ s.map (fun kv => kv.1) ∨ ∃ p : Pixel, k = pixelKey "default".toList p.x p.y) ∧
    (∀ k, k ∈ (part3ChatIngest room m s).map (fun kv => kv.1) →
      k ∈ s.map (fun kv => kv.1) ∨ k = chatKey (effRoom room) m.id) ∧
    (∀ k, k ∈ (chatBinIngest data s).map (fun kv => kv.1) →
      k ∈ s.map (fun kv => kv.1) ∨
        ∃ m2, chatDecodeBin data = .ok m2 ∧ k = chatKey "default".toList m2.id) ∧
    (∀ k, k ∈ (backendChatIngest room m s).map (fun kv => kv.1) →
      k ∈ s.map (fun kv => kv.1) ∨ k = roomPrefix (effRoom room) ++ intRepr m.timestamp) := by
  refine ⟨fun k h => keys_savePixels (effRoom room) pixels s k h,
    fun k h => keys_backendPixelIngest room pixels s k h, ?_, ?_, ?_, ?_⟩
  · intro k h
    unfold pixBinIngest at h
    cases hd : pixDecodeBin data with
    | ok l =>
      rw [hd] at h
      rcases keys_savePixels "default".toList l s k h with hmem | ⟨p, _, _, he⟩
      · exact Or.inl hmem
      · exact Or.inr ⟨p, he⟩
    | oob => rw [hd] at h; exact Or.inl h
    | fail => rw [hd] at h; exact Or.inl h
  · intro k h
    unfold part3ChatIngest at h
    rcases keys_putKV h with rfl | hmem
    · exact Or.inr rfl
    · exact Or.inl hmem
  · intro k h
    unfold chatBinIngest at h
    cases hd : chatDecodeBin data with
    | ok m2 =>
      rw [hd] at h
      rcases keys_putKV h with rfl | hmem
      · exact Or.inr ⟨m2, rfl, rfl⟩
      · exact Or.inl hmem
    | oob => rw [hd] at h; exact Or.inl h
    | fail => rw [hd] at h; exact Or.inl h
  · intro k h
    unfold backendChatIngest at h
    rcases keys_putKV h with rfl | hmem
    · exact Or.inr rfl
    · exact Or.inl hmem

/-- Witness for C7: the key written by the `part_003` chat handler for a
concrete message is `"/r/m1"`. -/
theorem C7_key_scheme_witness :
    "/r/m1".toList ∈ (([] : Store).map (fun kv => kv.1)) ∨
      "/r/m1".toList = chatKey (effRoom "r".toList) ("m1".toList) := by
  have h := (C7_key_scheme "r".toList [] ⟨"m1".toList, [], [], [], 5⟩ [] []).2.2.2.1
  exact h "/r/m1".toList (by decide)

/-! ## Claim C10 (binary chat always lands in room "default") -/

/-- C10 counterexample: a binary chat message whose messageId contains the
key delimiter (id `"x/1"`) lands at key `"/default/x/1"` and IS returned by
a chat query for room `"default/x"`, a room other than `"default"`. -/
theorem C10_counterexample :
    getMessagesList
        (chatBinIngest [3, 0, 0, 0, 120, 47, 49, 0, 0, 0, 0, 0, 0, 0, 0, 0, 0, 0, 0, 5, 0, 0, 0]
          []) "default/x".toList
      = [⟨"x/1".toList, [], [], [], 5⟩] ∧
    "default/x".toList ≠ "default".toList := by
  constructor <;> decide

/-- C10 (amended): the binary chat handler stores every decoded message
under room `"default"` (key `"/default/{id}"`) unconditionally, and a chat
query for any room other than `"default"` never lists such a key provided
the messageId does not contain `'/'` (an id containing the delimiter can
alias into rooms of the form `"default/..."`). -/
theorem C10_default_room (data : List Nat) (s : Store) :
    (∀ k, k ∈ (chatBinIngest data s).map (fun kv => kv.1) →
      k ∈ s.map (fun kv => kv.1) ∨
        ∃ m, chatDecodeBin data = .ok m ∧ k = chatKey "default".toList m.id) ∧
    (∀ (id r : Str), slashFree id → r ≠ "default".toList →
      ¬ roomPrefix r <+: chatKey "default".toList id) ∧
    (∀ (id r : Str) (s2 : Store), slashFree id → r ≠ "default".toList →
      chatKey "default".toList id ∉ listKeys s2 (roomPrefix r)) := by
  have hpfx : ∀ (id r : Str), slashFree id → r ≠ "default".toList →
      ¬ roomPrefix r <+: chatKey "default".toList id := by
    intro id r hid hne hp
    exact hne (roomPrefix_prefix_chatKey (by decide) hid hp)
  refine ⟨?_, hpfx, ?_⟩
  · intro k h
    unfold chatBinIngest at h
    cases hd : chatDecodeBin data with
    | ok m2 =>
      rw [hd] at h
      rcases keys_putKV h with rfl | hmem
      · exact Or.inr ⟨m2, rfl, rfl⟩
      · exact Or.inl hmem
    | oob => rw [hd] at h; exact Or.inl h
    | fail => rw [hd] at h; exact Or.inl h
  · intro id r s2 hid hne hmem
    exact hpfx id r hid hne (mem_listKeys.mp hmem).2

/-- Witness for C10: a concrete slash-free id is not listed for room `"r"`
even when its binding is present in the store. -/
theorem C10_default_room_witness :
    chatKey "default".toList "m1".toList ∉
      listKeys [(chatKey "default".toList "m1".toList, .junk 0)] (roomPrefix "r".toList) :=
  (C10_default_room [] []).2.2 "m1".toList "r".toList _ (by decide) (by decide)

/-! ## Claim C6 (message archive) -/

/-- C6: for every store state and room, `getMessages` returns exactly the
records under the room's prefix that decode successfully (`roomMessagesRaw`
is the collection loop of the source, which discards undecodable records
without failing), sorted nondecreasing by timestamp — and since this holds
for every store contents, for every insertion or listing order. -/
theorem C6_messages_sorted (s : Store) (room : Str) :
    (getMessagesList s room).Perm (roomMessagesRaw s room) ∧
    (getMessagesList s room).Sorted tsLE :=
  ⟨List.perm_insertionSort tsLE _, List.sorted_insertionSort tsLE _⟩

/-! ## Claim C9 (room clear) -/

theorem foldl_delKV (ks : List Str) :
    ∀ s : Store, ks.foldl (fun acc k => delKV k acc) s
      = s.filter (fun kv => !(ks.contains kv.1)) := by
  induction ks with
  | nil =>
    intro s
    simp [List.filter_true]
  | cons k ks ih =>
    intro s
    show ks.foldl (fun acc k => delKV k acc) (delKV k s) = _
    rw [ih]
    unfold delKV
    rw [List.filter_filter]
    apply List.filter_congr
    intro kv _
    simp only [List.contains_cons, Bool.not_or, bne]
    by_cases he : kv.1 == k
    · simp [he]
    · simp only [Bool.not_eq_true] at he
      simp [he]

theorem clearRoom_eq_filter (room : Str) (s : Store) :
    clearRoom room s = s.filter (fun kv => !((roomPrefix room).isPrefixOf kv.1)) := by
  unfold clearRoom
  rw [foldl_delKV]
  apply List.filter_congr
  intro kv hkv
  congr 1
  by_cases hp : (roomPrefix room).isPrefixOf kv.1 = true
  · rw [hp]
    have : kv.1 ∈ listKeys s (roomPrefix room) := by
      unfold listKeys
      rw [List.mem_filter]
      exact ⟨List.mem_map.mpr ⟨kv, hkv, rfl⟩, hp⟩
    exact List.elem_iff.mpr this
  · rw [Bool.not_eq_true] at hp
    rw [hp]
    have : kv.1 ∉ listKeys s (roomPrefix room) := by
      intro hmem
      unfold listKeys at hmem
      rw [List.mem_filter] at hmem
      rw [hmem.2] at hp
      exact absurd hp (by simp)
    simp [List.elem_iff, this]

theorem getKV_clearRoom_of_prefix {room : Str} {s : Store} {k : Str}
    (h : roomPrefix room <+: k) : getKV (clearRoom room s) k = none := by
  rw [clearRoom_eq_filter]
  unfold getKV
  rw [Option.map_eq_none', List.find?_eq_none]
  intro kv hkv
  have hP := List.of_mem_filter hkv
  simp only [Bool.not_eq_true'] at hP
  intro hbeq
  have : kv.1 = k := by simpa using hbeq
  rw [this] at hP
  rw [List.isPrefixOf_iff_prefix.mpr h] at hP
  exact absurd hP (by simp)

theorem getKV_clearRoom_of_not_prefix {room : Str} {s : Store} {k : Str}
    (h : ¬ roomPrefix room <+: k) : getKV (clearRoom room s) k = getKV s k := by
  rw [clearRoom_eq_filter]
  unfold getKV
  rw [find?_filter_of_imp]
  intro kv hbeq
  have he : kv.1 = k := by simpa using hbeq
  rw [he]
  simp only [Bool.not_eq_true']
  rw [← Bool.not_eq_true, List.isPrefixOf_iff_prefix]
  exact h

/-- C9 counterexample: the key `"/a/b/1:2"` is the pixel key of cell
`(1, 2)` of room `"a/b"`, a different room from `"a"`; clearing room
`"a"` nevertheless deletes it, because `"/a/"` is a prefix of the key. -/
theorem C9_counterexample :
    pixelKey "a/b".toList 1 2 = "/a/b/1:2".toList ∧
    clearData .canvas "a".toList [("/a/b/1:2".toList, .junk 0)] [] = ([], []) := by
  constructor <;> decide

/-- C9 (amended): a clear for a room deletes exactly the keys under the
room's prefix in the selected namespace and leaves the other namespace
untouched; the frame guarantee for every other room holds for rooms that
do not contain the key delimiter `'/'` — a room name containing `'/'` can
lie under another room's prefix and be cleared with it. -/
theorem C9_clear (room : Str) (cs chs : Store) :
    (∀ k, roomPrefix room <+: k → getKV (clearRoom room cs) k = none) ∧
    (∀ k, ¬ roomPrefix room <+: k → getKV (clearRoom room cs) k = getKV cs k) ∧
    ((clearData .canvas room cs chs).1 = clearRoom room cs ∧
      (clearData .canvas room cs chs).2 = chs) ∧
    ((clearData .chat room cs chs).1 = cs ∧
      (clearData .chat room cs chs).2 = clearRoom room chs) ∧
    (∀ (r2 : Str) (x y : Int), slashFree r2 → r2 ≠ room →
      getKV (clearRoom room cs) (pixelKey r2 x y) = getKV cs (pixelKey r2 x y)) ∧
    (∀ (r2 id : Str), slashFree r2 → slashFree id → r2 ≠ room →
      getKV (clearRoom room cs) (chatKey r2 id) = getKV cs (chatKey r2 id)) := by
  refine ⟨fun k h => getKV_clearRoom_of_prefix h,
    fun k h => getKV_clearRoom_of_not_prefix h, ⟨rfl, rfl⟩, ⟨rfl, rfl⟩, ?_, ?_⟩
  · intro r2 x y hr2 hne
    apply getKV_clearRoom_of_not_prefix
    intro hp
    exact hne (roomPrefix_prefix_pixelKey hr2 hp).symm
  · intro r2 id hr2 hid hne
    apply getKV_clearRoom_of_not_prefix
    intro hp
    exact hne (roomPrefix_prefix_chatKey hr2 hid hp).symm

/-- Witness for C9: clearing room `"a"` removes room `"a"`'s own pixel key
and leaves the key of the slash-free room `"b"` bound as before. -/
theorem C9_clear_witness :
    getKV (clearRoom "a".toList [(pixelKey "a".toList 1 2, .junk 1)])
        (pixelKey "a".toList 1 2) = none ∧
    getKV (clearRoom "a".toList [(pixelKey "b".toList 1 2, .junk 0)])
        (pixelKey "b".toList 1 2)
      = getKV [(pixelKey "b".toList 1 2, .junk 0)] (pixelKey "b".toList 1 2) := by
  constructor
  · exact (C9_clear "a".toList [(pixelKey "a".toList 1 2, .junk 1)] []).1 _
      (roomPrefix_prefix_pixelKey_self "a".toList 1 2)
  · exact (C9_clear "a".toList [(pixelKey "b".toList 1 2, .junk 0)] []).2.2.2.2.1 "b".toList
      1 2 (by decide) (by decide)

/-! ## Claim C4 (wire-format equivalence) -/

theorem unmarshalPixel_pixelToJson (p : Pixel) : unmarshalPixel (pixelToJson p) = some p := rfl

theorem unmarshalPixelList_map (ps : List Pixel) :
    unmarshalPixelList (ps.map pixelToJson) = some ps := by
  induction ps with
  | nil => rfl
  | cons p ps ih =>
    show unmarshalPixelList (pixelToJson p :: ps.map pixelToJson) = _
    unfold unmarshalPixelList
    rw [unmarshalPixel_pixelToJson, ih]
    rfl

theorem decodeJsonV1_encodeBare (ps : List Pixel) (hne : ps ≠ []) :
    decodeJsonV1 (encodeBare ps) = some (ps, "default".toList) := by
  unfold decodeJsonV1 encodeBare
  have h : unmarshalPixelArray (.arr (ps.map pixelToJson)) = some ps :=
    unmarshalPixelList_map ps
  rw [h]
  have hlen : 0 < ps.length := List.length_pos.mpr hne
  simp [hlen]

theorem unmarshalBatch_encodeBatchObj (ps : List Pixel) (room : Str) :
    unmarshalBatch (encodeBatchObj ps room) = some ⟨ps, room, 0, [], []⟩ := by
  have h : jPixArr (some (.arr (ps.map pixelToJson))) = some ps := unmarshalPixelList_map ps
  simp only [unmarshalBatch, encodeBatchObj, jField, List.reverse_cons, List.reverse_nil,
    List.nil_append, List.cons_append, List.find?]
  norm_num
  rw [h]
  rfl

theorem decodeJsonObj_encodeBatchObj (ps : List Pixel) :
    decodeJsonObj (encodeBatchObj ps "default".toList) = some (ps, "default".toList) := by
  unfold decodeJsonObj
  rw [unmarshalBatch_encodeBatchObj]
  rfl

theorem jInnerLists_map (ts : List (List Json)) :
    jInnerLists (ts.map Json.arr) = some ts := by
  induction ts with
  | nil => rfl
  | cons t ts ih =>
    show jInnerLists (.arr t :: ts.map Json.arr) = _
    unfold jInnerLists
    rw [ih]
    rfl

theorem unmarshalComp_encodeComp (ps : List Pixel) (room src : Str) :
    unmarshalComp (encodeComp ps room src)
      = some ⟨ps.map (fun p => [.num p.x, .num p.y, .str p.color]), room, 0, [], src⟩ := by
  have h : jArrArr (some (.arr (ps.map (fun p => .arr [.num p.x, .num p.y, .str p.color]))))
      = some (ps.map (fun p => [.num p.x, .num p.y, .str p.color])) := by
    show jInnerLists (ps.map (fun p => Json.arr [.num p.x, .num p.y, .str p.color]))
        = some (ps.map (fun p => [.num p.x, .num p.y, .str p.color]))
    have e : ps.map (fun p => Json.arr [.num p.x, .num p.y, .str p.color])
        = (ps.map (fun p => [Json.num p.x, Json.num p.y, Json.str p.color])).map Json.arr := by
      rw [List.map_map]
      rfl
    rw [e]
    exact jInnerLists_map _
  simp only [unmarshalComp, encodeComp, jField, List.reverse_cons, List.reverse_nil,
    List.nil_append, List.cons_append, List.find?]
  norm_num
  simp only [show ('s' == 'p') = false from rfl, show ('b' == 'p') = false from rfl,
    show ('t' == 'p') = false from rfl, show ('r' == 'p') = false from rfl,
    show ('s' == 'r') = false from rfl, show ('b' == 'r') = false from rfl,
    show ('t' == 'r') = false from rfl, show ('s' == 't') = false from rfl,
    show ('b' == 't') = false from rfl, show ('s' == 'b') = false from rfl]
  simp only [Option.map_some']
  rw [h]
  rfl

theorem compPixels_triples (src : Str) (ps : List Pixel) :
    compPixels src (ps.map (fun p => [.num p.x, .num p.y, .str p.color]))
      = ps.map (fun p => ⟨p.x, p.y, p.color, src, "unknown".toList⟩) := by
  induction ps with
  | nil => rfl
  | cons p ps ih =>
    show compPixels src ([Json.num p.x, Json.num p.y, Json.str p.color]
        :: ps.map (fun p => [Json.num p.x, Json.num p.y, Json.str p.color])) = _
    unfold compPixels at ih ⊢
    rw [List.filterMap_cons]
    simp only [show tripleToPixel src [Json.num p.x, Json.num p.y, Json.str p.color]
      = some ⟨p.x, p.y, p.color, src, "unknown".toList⟩ from rfl]
    rw [ih]
    rfl

theorem decodeJsonComp_encodeComp (ps : List Pixel) (src : Str) (hne : ps ≠ []) :
    decodeJsonComp (encodeComp ps "default".toList src)
      = some (ps.map (fun p => ⟨p.x, p.y, p.color, src, "unknown".toList⟩), "default".toList) := by
  unfold decodeJsonComp
  rw [unmarshalComp_encodeComp]
  have hlen : 0 < (ps.map (fun p => [Json.num p.x, Json.num p.y, Json.str p.color])).length := by
    simpa using List.length_pos.mpr hne
  show (if 0 < (ps.map (fun p => [Json.num p.x, Json.num p.y, Json.str p.color])).length
      then some (compPixels src (ps.map (fun p => [Json.num p.x, Json.num p.y, Json.str p.color])),
        effRoom "default".toList)
      else decodeJsonObj (encodeComp ps "default".toList src))
    = some (ps.map (fun p => ⟨p.x, p.y, p.color, src, "unknown".toList⟩), "default".toList)
  rw [if_pos hlen, compPixels_triples]
  rfl

/-- C4: given logically equivalent batch content — a nonempty record list
with `uint16` coordinates and a 24-bit packed color, the only content all
four formats can carry (the binary format fixes room `"default"` and
identity `"unknown"`, the compressed format takes userId from its `s`
field) — the bare-array decoder, the batch-object decoder, the
compressed-object decoder and the binary decoder produce the same
normalized pixel sequence, in order, for the same target room. -/
theorem C4_format_equivalence (recs : List (Nat × Nat × Nat))
    (hne : recs ≠ []) (hb : ∀ r ∈ recs, r.1 < 65536 ∧ r.2.1 < 65536 ∧ r.2.2 < 4294967296)
    (hc : recs.length < 4294967296) :
    decodeJsonV1 (encodeBare (recs.map normPixel))
        = some (recs.map normPixel, "default".toList) ∧
    decodeJsonObj (encodeBatchObj (recs.map normPixel) "default".toList)
        = some (recs.map normPixel, "default".toList) ∧
    decodeJsonComp (encodeComp (recs.map normPixel) "default".toList "unknown".toList)
        = some (recs.map normPixel, "default".toList) ∧
    pixDecodeBin (pixWire recs) = .ok (recs.map normPixel) := by
  have hmne : recs.map normPixel ≠ [] := by simpa using hne
  refine ⟨decodeJsonV1_encodeBare _ hmne, decodeJsonObj_encodeBatchObj _, ?_,
    pixDecodeBin_wire recs hb hc⟩
  rw [decodeJsonComp_encodeComp _ _ hmne]
  have e : (recs.map normPixel).map
        (fun p => (⟨p.x, p.y, p.color, "unknown".toList, "unknown".toList⟩ : Pixel))
      = recs.map normPixel := by
    rw [List.map_map]
    exact List.map_congr_left (fun r _ => rfl)
  rw [e]

/-- Witness for C4 at the single-record content `(3, 4, 0x00FF00)`: all
four wire encodings decode to the pixel `{3, 4, "#00ff00", "unknown",
"unknown"}` in room `"default"`. -/
theorem C4_format_equivalence_witness :
    decodeJsonV1 (encodeBare [⟨3, 4, "#00ff00".toList, "unknown".toList, "unknown".toList⟩])
      = some ([⟨3, 4, "#00ff00".toList, "unknown".toList, "unknown".toList⟩],
          "default".toList) ∧
    decodeJsonObj (encodeBatchObj [⟨3, 4, "#00ff00".toList, "unknown".toList,
        "unknown".toList⟩] "default".toList)
      = some ([⟨3, 4, "#00ff00".toList, "unknown".toList, "unknown".toList⟩],
          "default".toList) ∧
    decodeJsonComp (encodeComp [⟨3, 4, "#00ff00".toList, "unknown".toList,
        "unknown".toList⟩] "default".toList "unknown".toList)
      = some ([⟨3, 4, "#00ff00".toList, "unknown".toList, "unknown".toList⟩],
          "default".toList) ∧
    pixDecodeBin (pixWire [(3, 4, 65280)])
      = .ok [⟨3, 4, "#00ff00".toList, "unknown".toList, "unknown".toList⟩] := by
  have h := C4_format_equivalence [(3, 4, 65280)] (by decide) (by decide) (by decide)
  have e : [(3, 4, 65280)].map normPixel
      = [(⟨3, 4, "#00ff00".toList, "unknown".toList, "unknown".toList⟩ : Pixel)] := by decide
  rw [e] at h
  exact h

/-! ## Claim C1 (ingest / canvas roundtrip) -/

theorem foldl_lastIf {α β : Type} (C : α → Prop) [DecidablePred C] (g : α → β) :
    ∀ (l : List α) (a : Option β),
      l.foldl (fun acc x => if C x then some (g x) else acc) a
        = (l.foldl (fun acc x => if C x then some (g x) else acc) none).elim a some := by
  intro l
  induction l with
  | nil => intro a; rfl
  | cons x l ih =>
    intro a
    show l.foldl _ (if C x then some (g x) else a)
      = (l.foldl _ (if C x then some (g x) else none)).elim a some
    by_cases hC : C x
    · rw [if_pos hC, if_pos hC, ih (some (g x))]
      cases hr : l.foldl (fun acc x => if C x then some (g x) else acc) none with
      | none => rfl
      | some b => rfl
    · rw [if_neg hC, if_neg hC]
      exact ih a

theorem foldl_lastOpt {α β : Type} (f : α → Option β) :
    ∀ (l : List α) (a : Option β),
      l.foldl (fun acc x => (f x).elim acc some) a
        = (l.foldl (fun acc x => (f x).elim acc some) none).elim a some := by
  intro l
  induction l with
  | nil => intro a; rfl
  | cons x l ih =>
    intro a
    show l.foldl _ ((f x).elim a some) = (l.foldl _ ((f x).elim none some)).elim a some
    cases hf : f x with
    | some b =>
      rw [Option.elim_some, Option.elim_some, ih (some b)]
      cases hr : l.foldl (fun acc x => (f x).elim acc some) none with
      | none => rfl
      | some b2 => rfl
    | none =>
      rw [Option.elim_none, Option.elim_none]
      exact ih a

theorem pixelKey_eq_iff {room q : Str} {x2 y2 : Int} {x y : Nat}
    (hr : slashFree room) (hx2 : 0 ≤ x2) (hy2 : 0 ≤ y2)
    (h : pixelKey room x2 y2 = pixelKey q (x : Int) (y : Int)) :
    room = q ∧ x2 = (x : Int) ∧ y2 = (y : Int) := by
  have hpre : roomPrefix q <+: pixelKey room x2 y2 := by
    rw [h]
    exact roomPrefix_prefix_pixelKey_self q (x : Int) (y : Int)
  have hroom : q = room := roomPrefix_prefix_pixelKey hr hpre
  subst hroom
  have hco := pixelKey_inj hx2 hy2 (Int.natCast_nonneg x) (Int.natCast_nonneg y) h
  exact ⟨rfl, hco.1, hco.2⟩

theorem savePixels_lookup (room q : Str) (x y : Nat) (hr : slashFree room) :
    ∀ (ps : List Pixel) (s : Store),
      getKV (savePixels room ps s) (pixelKey q (x : Int) (y : Int))
        = (batchLast room q x y ps).elim (getKV s (pixelKey q (x : Int) (y : Int)))
            (fun p => some (.pix p)) := by
  intro ps
  induction ps with
  | nil => intro s; rfl
  | cons p ps ih =>
    intro s
    have hstep : savePixels room (p :: ps) s
        = savePixels room ps
            (if inRange p then putKV (pixelKey room p.x p.y) (.pix p) s else s) := rfl
    have hbatch : batchLast room q x y (p :: ps)
        = (batchLast room q x y ps).elim
            (if inRange p ∧ room = q ∧ p.x = (x : Int) ∧ p.y = (y : Int) then some p else none)
            some := by
      show ps.foldl _ (if inRange p ∧ room = q ∧ p.x = (x : Int) ∧ p.y = (y : Int)
          then some p else none) = _
      have := foldl_lastIf
        (fun p2 : Pixel => inRange p2 ∧ room = q ∧ p2.x = (x : Int) ∧ p2.y = (y : Int))
        (fun p2 : Pixel => p2) ps
        (if inRange p ∧ room = q ∧ p.x = (x : Int) ∧ p.y = (y : Int) then some p else none)
      exact this
    rw [hstep, ih, hbatch]
    cases hb : batchLast room q x y ps with
    | some p2 => rfl
    | none =>
      rw [Option.elim_none, Option.elim_none]
      by_cases hC : inRange p ∧ room = q ∧ p.x = (x : Int) ∧ p.y = (y : Int)
      · rw [if_pos hC, if_pos hC.1, Option.elim_some]
        obtain ⟨hir, hrq, hpx, hpy⟩ := hC
        rw [hrq, hpx, hpy]
        exact getKV_putKV_self _ _ s
      · rw [if_neg hC, Option.elim_none]
        by_cases hir : inRange p
        · rw [if_pos hir]
          apply getKV_putKV_ne
          intro he
          have := pixelKey_eq_iff hr (by exact hir.1) (by exact hir.2.2.1) he.symm
          exact hC ⟨hir, this⟩
        · rw [if_neg hir]

theorem runHistory_lookup (q : Str) (x y : Nat) :
    ∀ (hist : History) (s : Store), (∀ rb ∈ hist, slashFree (effRoom rb.1)) →
      getKV (hist.foldl (fun s rb => part3PixelIngest rb.1 rb.2 s) s)
          (pixelKey q (x : Int) (y : Int))
        = (lastIngest q x y hist).elim (getKV s (pixelKey q (x : Int) (y : Int)))
            (fun p => some (.pix p)) := by
  intro hist
  induction hist with
  | nil => intro s _; rfl
  | cons rb hist ih =>
    intro s hsf
    have hstep : (rb :: hist).foldl (fun s rb => part3PixelIngest rb.1 rb.2 s) s
        = hist.foldl (fun s rb => part3PixelIngest rb.1 rb.2 s)
            (part3PixelIngest rb.1 rb.2 s) := rfl
    have hlast : lastIngest q x y (rb :: hist)
        = (lastIngest q x y hist).elim ((batchLast (effRoom rb.1) q x y rb.2).elim none some)
            some := by
      show hist.foldl _ ((batchLast (effRoom rb.1) q x y rb.2).elim none some) = _
      exact foldl_lastOpt (fun rb2 => batchLast (effRoom rb2.1) q x y rb2.2) hist _
    rw [hstep, ih _ (fun rb2 h2 => hsf rb2 (by simp [h2])), hlast]
    have hing : getKV (part3PixelIngest rb.1 rb.2 s) (pixelKey q (x : Int) (y : Int))
        = (batchLast (effRoom rb.1) q x y rb.2).elim
            (getKV s (pixelKey q (x : Int) (y : Int))) (fun p => some (.pix p)) :=
      savePixels_lookup (effRoom rb.1) q x y (hsf rb (by simp)) rb.2 s
    cases hl : lastIngest q x y hist with
    | some p2 => rfl
    | none =>
      rw [Option.elim_none, Option.elim_none, hing]
      cases hb : batchLast (effRoom rb.1) q x y rb.2 with
      | some p => rfl
      | none => rfl

theorem shapeOK_nil : ShapeOK [] := ⟨fun kv hkv => absurd hkv (by simp), by simp⟩

theorem shapeOK_savePixels (room : Str) (hr : slashFree room) :
    ∀ (ps : List Pixel) (s : Store), ShapeOK s → ShapeOK (savePixels room ps s) := by
  intro ps
  induction ps with
  | nil => intro s h; exact h
  | cons p ps ih =>
    intro s h
    show ShapeOK (savePixels room ps
      (if inRange p then putKV (pixelKey room p.x p.y) (.pix p) s else s))
    apply ih
    by_cases hir : inRange p
    · rw [if_pos hir]
      refine ⟨?_, nodup_keys_putKV h.2⟩
      intro kv hkv
      rcases List.mem_cons.mp hkv with rfl | hkv2
      · exact ⟨room, p, hr, hir, rfl, rfl⟩
      · exact h.1 kv (List.mem_of_mem_filter hkv2)
    · rw [if_neg hir]
      exact h

theorem shapeOK_runHistory :
    ∀ (hist : History) (s : Store), (∀ rb ∈ hist, slashFree (effRoom rb.1)) → ShapeOK s →
      ShapeOK (hist.foldl (fun s rb => part3PixelIngest rb.1 rb.2 s) s) := by
  intro hist
  induction hist with
  | nil => intro s _ h; exact h
  | cons rb hist ih =>
    intro s hsf h
    exact ih _ (fun rb2 h2 => hsf rb2 (by simp [h2]))
      (shapeOK_savePixels (effRoom rb.1) (hsf rb (by simp)) rb.2 s h)

theorem applyCanvasKey_wf {s : Store} {room : Str} {g : Grid} {k : Str} (h : GridWF g) :
    GridWF (applyCanvasKey s room g k) := by
  unfold applyCanvasKey
  repeat' split
  all_goals first | exact gridWF_setCell h | exact h

theorem applyCanvasKey_shape {s : Store} {q : Str} {x2 y2 : Int} {pv : Pixel} (g : Grid)
    (hx2 : 0 ≤ x2) (hy2 : 0 ≤ y2) (hx2b : x2 < (canvasW : Int)) (hy2b : y2 < (canvasH : Int))
    (hv : getKV s (pixelKey q x2 y2) = some (.pix pv)) :
    applyCanvasKey s q g (pixelKey q x2 y2) = setCell g x2.toNat y2.toNat pv.color := by
  unfold applyCanvasKey
  rw [if_neg (by have := pixelKey_length q x2 y2; omega)]
  rw [pixelKey_drop, sscanfDD_coordStr hx2 hy2]
  show (if 0 ≤ x2 ∧ x2 < (canvasW : Int) ∧ 0 ≤ y2 ∧ y2 < (canvasH : Int) then _ else g) = _
  rw [if_pos ⟨hx2, hx2b, hy2, hy2b⟩, hv]
  rfl

theorem getKV_is_some_of_mem_keys {s : Store} {k : Str}
    (h : k ∈ s.map (fun kv => kv.1)) : ∃ v, getKV s k = some v := by
  cases hg : getKV s k with
  | none => exact absurd h (getKV_eq_none_iff.mp hg)
  | some v => exact ⟨v, rfl⟩

theorem foldl_cell (s : Store) (q : Str) (x y : Nat) (k0 : Str) (c0 : Str) :
    ∀ (ks : List Str) (g : Grid), GridWF g →
      (k0 ∈ ks → ∀ g2, GridWF g2 → getCell (applyCanvasKey s q g2 k0) x y = c0) →
      (∀ k ∈ ks, k ≠ k0 → ∀ g2, GridWF g2 →
        getCell (applyCanvasKey s q g2 k) x y = getCell g2 x y) →
      getCell (ks.foldl (applyCanvasKey s q) g) x y
        = if k0 ∈ ks then c0 else getCell g x y := by
  intro ks
  induction ks with
  | nil =>
    intro g _ _ _
    rw [if_neg (by simp)]
    rfl
  | cons k ks ih =>
    intro g hwf h0 hother
    have hwf2 : GridWF (applyCanvasKey s q g k) := applyCanvasKey_wf hwf
    rw [List.foldl_cons]
    rw [ih _ hwf2 (fun hm => h0 (by simp [hm])) (fun k2 h2 => hother k2 (by simp [h2]))]
    by_cases hk : k = k0
    · subst hk
      rw [if_pos (List.mem_cons_self k ks)]
      by_cases hmem : k ∈ ks
      · rw [if_pos hmem]
      · rw [if_neg hmem, h0 (List.mem_cons_self k ks) g hwf]
    · by_cases hmem : k0 ∈ ks
      · rw [if_pos hmem, if_pos (List.mem_cons_of_mem k hmem)]
      · have hnot : k0 ∉ k :: ks := by
          rw [List.mem_cons, not_or]
          exact ⟨fun e => hk e.symm, hmem⟩
        rw [if_neg hmem, if_neg hnot, hother k (List.mem_cons_self k ks) hk g hwf]

theorem getCanvas_cell {s : Store} (hS : ShapeOK s) {q : Str}
    {x y : Nat} (hx : x < canvasW) (hy : y < canvasH) :
    getCell (part3GetCanvas s q) x y
      = match getKV s (pixelKey q (x : Int) (y : Int)) with
        | some (.pix p) => p.color
        | _ => white := by
  have hinit : getCell initGrid x y = white := getCell_initGrid hx hy
  have hother : ∀ k ∈ listKeys s (roomPrefix q), k ≠ pixelKey q (x : Int) (y : Int) →
      ∀ g2, GridWF g2 → getCell (applyCanvasKey s q g2 k) x y = getCell g2 x y := by
    intro k hk hne g2 hwf2
    have hmem := (mem_listKeys.mp hk).1
    have hpre := (mem_listKeys.mp hk).2
    obtain ⟨v, hv⟩ := getKV_is_some_of_mem_keys hmem
    obtain ⟨r2, p2, hr2, hir2, hkey, hval⟩ := hS.1 _ (getKV_mem hv)
    simp only at hkey hval
    subst hkey
    have hq2 : q = r2 := roomPrefix_prefix_pixelKey hr2 hpre
    subst hq2
    rw [hval] at hv
    rw [applyCanvasKey_shape g2 hir2.1 hir2.2.2.1 hir2.2.1 hir2.2.2.2 hv]
    apply getCell_setCell_other
    by_contra hcon
    rw [not_or, not_not, not_not] at hcon
    have hir2b : 0 ≤ p2.x ∧ p2.x < (canvasW : Int) ∧ 0 ≤ p2.y ∧ p2.y < (canvasH : Int) := hir2
    apply hne
    have hxx : p2.x = (x : Int) := by omega
    have hyy : p2.y = (y : Int) := by omega
    rw [hxx, hyy]
  cases hv : getKV s (pixelKey q (x : Int) (y : Int)) with
  | none =>
    have hnot : pixelKey q (x : Int) (y : Int) ∉ listKeys s (roomPrefix q) := by
      intro hmem
      exact absurd (mem_listKeys.mp hmem).1 (getKV_eq_none_iff.mp hv)
    unfold part3GetCanvas
    rw [foldl_cell s q x y (pixelKey q (x : Int) (y : Int)) white _ initGrid gridWF_initGrid
      (fun hm => absurd hm hnot) hother]
    rw [if_neg hnot, hinit]
  | some v =>
    obtain ⟨r2, p2, hr2, hir2, hkey, hval⟩ := hS.1 _ (getKV_mem hv)
    simp only at hkey hval
    subst hval
    have hco := pixelKey_eq_iff hr2 hir2.1 hir2.2.2.1 hkey.symm
    have hmem : pixelKey q (x : Int) (y : Int) ∈ listKeys s (roomPrefix q) := by
      rw [mem_listKeys]
      constructor
      · cases hg2 : getKV s (pixelKey q (x : Int) (y : Int)) with
        | none => rw [hg2] at hv; cases hv
        | some v2 =>
          by_contra hnk
          exact absurd hg2 (by rw [getKV_eq_none_iff.mpr hnk]; simp)
      · exact roomPrefix_prefix_pixelKey_self q _ _
    unfold part3GetCanvas
    have h0 : ∀ g2, GridWF g2 →
        getCell (applyCanvasKey s q g2 (pixelKey q (x : Int) (y : Int))) x y = p2.color := by
      intro g2 hwf2
      rw [applyCanvasKey_shape g2 (Int.natCast_nonneg x) (Int.natCast_nonneg y)
        (by exact_mod_cast hx) (by exact_mod_cast hy) hv]
      have hxt : ((x : Int)).toNat = x := Int.toNat_natCast x
      have hyt : ((y : Int)).toNat = y := Int.toNat_natCast y
      rw [hxt, hyt]
      exact getCell_setCell_same hwf2 hx hy
    rw [foldl_cell s q x y (pixelKey q (x : Int) (y : Int)) p2.color _ initGrid gridWF_initGrid
      (fun _ => h0) hother]
    rw [if_pos hmem]

/-- C1 (amended): starting from an empty `/canvas` namespace, for every
history of `part_003` pixel ingests whose effective rooms contain no `'/'`,
a canvas query for any room `q` shows at cell `[y][x]` exactly the color of
the last in-range pixel ingested for `q` at `(x, y)`, and the background
`"#ffffff"` for every cell never written for `q`.  Without the slash-free
restriction on room names the claim fails (see the counterexample). -/
theorem C1_canvas_roundtrip (hist : History) (q : Str) (x y : Nat)
    (hhist : ∀ rb ∈ hist, slashFree (effRoom rb.1))
    (hx : x < canvasW) (hy : y < canvasH) :
    getCell (part3GetCanvas (runHistory hist) q) x y
      = ((lastIngest q x y hist).map Pixel.color).getD white := by
  have hshape : ShapeOK (runHistory hist) := shapeOK_runHistory hist [] hhist shapeOK_nil
  have hlook : getKV (runHistory hist) (pixelKey q (x : Int) (y : Int))
      = (lastIngest q x y hist).elim (getKV [] (pixelKey q (x : Int) (y : Int)))
          (fun p => some (.pix p)) := runHistory_lookup q x y hist [] hhist
  rw [getCanvas_cell hshape hx hy, hlook]
  cases lastIngest q x y hist with
  | none => rfl
  | some p => rfl

/-- C1 counterexample: one ingest for the slash-carrying room `"r/0:0"`
writes key `"/r/0:0/0:0"`; a canvas query for room `"r"` lists that key
(prefix `"/r/"`), parses its suffix `"0:0/0:0"` as `(0, 0)`, and colors
cell `[0][0]` — a cell never written for room `"r"` — `"#123456"` instead
of the background. -/
theorem C1_counterexample :
    lastIngest "r".toList 0 0 [("r/0:0".toList, [⟨0, 0, "#123456".toList, [], []⟩])] = none ∧
    getCell (part3GetCanvas (runHistory [("r/0:0".toList,
        [⟨0, 0, "#123456".toList, [], []⟩])]) "r".toList) 0 0 = "#123456".toList ∧
    "#123456".toList ≠ white := by
  refine ⟨by decide, by decide, by decide⟩

/-- Witness for C1 at the spec example: ingesting
`{x:10, y:5, color:"#ff0000", userId:"u1", username:"alice"}` for room
`"r1"` makes the canvas query for `"r1"` show `"#ff0000"` at `[5][10]` and
the background at an untouched cell. -/
theorem C1_canvas_roundtrip_witness :
    getCell (part3GetCanvas (runHistory [("r1".toList,
        [⟨10, 5, "#ff0000".toList, "u1".toList, "alice".toList⟩])]) "r1".toList) 10 5
      = "#ff0000".toList ∧
    getCell (part3GetCanvas (runHistory [("r1".toList,
        [⟨10, 5, "#ff0000".toList, "u1".toList, "alice".toList⟩])]) "r1".toList) 0 0
      = white := by
  have h1 := C1_canvas_roundtrip [("r1".toList,
    [⟨10, 5, "#ff0000".toList, "u1".toList, "alice".toList⟩])] "r1".toList 10 5
    (by decide) (by decide) (by decide)
  have h2 := C1_canvas_roundtrip [("r1".toList,
    [⟨10, 5, "#ff0000".toList, "u1".toList, "alice".toList⟩])] "r1".toList 0 0
    (by decide) (by decide) (by decide)
  rw [h1, h2]
  constructor <;> decide

end PixLib
